import Mathlib

/-!
# A peer-to-peer ledger: blocks, proof of work, validation and snapshot adoption

A shallow embedding of `block.go`, `chain.go` and the receive step of `p2p.go`.

* Go strings that the node stores are produced by `json.Unmarshal` or by `fmt.Sprintf`, hence are
  valid UTF-8; they are modelled by `String`.
* Go `int` and `int64` are modelled by `Int`; the additions of the code wrap at 64 bits
  (`wrapInt64`), and `inInt64` singles out the values of these types.
* `time.Now().Unix()` is an argument `now` of the operations that read the clock.
* `mine` is an unbounded loop; it is modelled with a bound `fuel` on the number of evaluations of
  the loop condition, and `none` stands for a call that does not return normally.
* The mutexes serialise the operations; each operation is modelled as one atomic step.
* `sha256.Sum256` is SHA-256 as in FIPS 180-4, on the UTF-8 bytes of the string.
* `json.Marshal` and `json.Unmarshal` are modelled on the types of the program. The encoder
  writes what encoding/json writes for them (fields in declaration order under their tags, HTML
  escaping on, the control characters \b and \f written with their letters). The decoder checks
  the syntax of the whole input, then decodes the value into the variable: keys are matched up to
  case, unknown keys are skipped, null leaves a field as it is and empties a slice, a value of the
  wrong type or an integer outside int64 is an error, and a repeated key decodes into the value
  already held (for the slice, into its backing array, which keeps the blocks that an earlier,
  longer array left beyond the length).
-/

namespace P2PBlockchain

/-! ## SHA-256 (crypto/sha256) on lists of bytes -/

/-- Addition of 32-bit words. -/
def add32 (a b : Nat) : Nat := (a + b) % 4294967296

/-- Rotation of a 32-bit word to the right by `n` bits. -/
def rotr32 (x n : Nat) : Nat := ((x >>> n) ||| (x <<< (32 - n))) % 4294967296

/-- The eight working words of SHA-256. -/
structure Sha256State where
  a : Nat
  b : Nat
  c : Nat
  d : Nat
  e : Nat
  f : Nat
  g : Nat
  h : Nat
deriving DecidableEq, Repr

def sha256Init : Sha256State :=
  ⟨1779033703, 3144134277, 1013904242, 2773480762, 1359893119, 2600822924, 528734635, 1541459225⟩

def sha256K : List Nat :=
  [1116352408, 1899447441, 3049323471, 3921009573, 961987163, 1508970993, 2453635748, 2870763221,
   3624381080, 310598401, 607225278, 1426881987, 1925078388, 2162078206, 2614888103, 3248222580,
   3835390401, 4022224774, 264347078, 604807628, 770255983, 1249150122, 1555081692, 1996064986,
   2554220882, 2821834349, 2952996808, 3210313671, 3336571891, 3584528711, 113926993, 338241895,
   666307205, 773529912, 1294757372, 1396182291, 1695183700, 1986661051, 2177026350, 2456956037,
   2730485921, 2820302411, 3259730800, 3345764771, 3516065817, 3600352804, 4094571909, 275423344,
   430227734, 506948616, 659060556, 883997877, 958139571, 1322822218, 1537002063, 1747873779,
   1955562222, 2024104815, 2227730452, 2361852424, 2428436474, 2756734187, 3204031479, 3329325298]

/-- One round: `w` is the schedule word of the round, `k` its constant. -/
def sha256Round (s : Sha256State) (k w : Nat) : Sha256State :=
  let s1 := rotr32 s.e 6 ^^^ rotr32 s.e 11 ^^^ rotr32 s.e 25
  let ch := (s.e &&& s.f) ^^^ ((4294967295 - s.e) &&& s.g)
  let t1 := add32 (add32 (add32 (add32 s.h s1) ch) k) w
  let s0 := rotr32 s.a 2 ^^^ rotr32 s.a 13 ^^^ rotr32 s.a 22
  let maj := (s.a &&& s.b) ^^^ (s.a &&& s.c) ^^^ (s.b &&& s.c)
  let t2 := add32 s0 maj
  ⟨add32 t1 t2, s.a, s.b, s.c, add32 s.d t1, s.e, s.f, s.g⟩

/-- The schedule word sixteen places after the head of the window `w`. -/
def sha256Next (w : List Nat) : Nat :=
  let w0 := w.getD 0 0
  let w1 := w.getD 1 0
  let w9 := w.getD 9 0
  let w14 := w.getD 14 0
  let s0 := rotr32 w1 7 ^^^ rotr32 w1 18 ^^^ (w1 >>> 3)
  let s1 := rotr32 w14 17 ^^^ rotr32 w14 19 ^^^ (w14 >>> 10)
  add32 (add32 (add32 w0 s0) w9) s1

/-- The rounds of one block, one per constant; `w` is the sliding window of sixteen words. -/
def sha256Rounds : List Nat → List Nat → Sha256State → Sha256State
  | [], _, s => s
  | k :: ks, w, s =>
    let n := sha256Next w
    sha256Rounds ks (w.tail ++ [n]) (sha256Round s k (w.getD 0 0))

/-- Big-endian words of a list of bytes, four bytes per word. -/
def beWords : List Nat → List Nat
  | b0 :: b1 :: b2 :: b3 :: rest => (((b0 * 256 + b1) * 256 + b2) * 256 + b3) :: beWords rest
  | _ => []

/-- Compression of one block of sixteen words into the running state. -/
def sha256Block (s : Sha256State) (w : List Nat) : Sha256State :=
  let t := sha256Rounds sha256K w s
  ⟨add32 s.a t.a, add32 s.b t.b, add32 s.c t.c, add32 s.d t.d,
   add32 s.e t.e, add32 s.f t.f, add32 s.g t.g, add32 s.h t.h⟩

/-- Compression of all the words, sixteen at a time. -/
def sha256Blocks : Nat → Sha256State → List Nat → Sha256State
  | 0, s, _ => s
  | fuel + 1, s, ws =>
    match ws with
    | [] => s
    | _ :: _ => sha256Blocks fuel (sha256Block s (ws.take 16)) (ws.drop 16)

/-- The `n` low bytes of `x`, most significant first. -/
def beBytes : Nat → Nat → List Nat
  | 0, _ => []
  | n + 1, x => beBytes n (x / 256) ++ [x % 256]

/-- Padding: the bit 1, zeros up to 56 modulo 64, and the length in bits on eight bytes. -/
def sha256Pad (msg : List Nat) : List Nat :=
  let l := msg.length
  msg ++ [128] ++ List.replicate ((119 - l % 64) % 64) 0 ++ beBytes 8 (l * 8)

/-- The digest of sha256.Sum256: thirty-two bytes. -/
def sha256Sum256 (msg : List Nat) : List Nat :=
  let ws := beWords (sha256Pad msg)
  let s := sha256Blocks ws.length sha256Init ws
  beBytes 4 s.a ++ beBytes 4 s.b ++ beBytes 4 s.c ++ beBytes 4 s.d ++
  beBytes 4 s.e ++ beBytes 4 s.f ++ beBytes 4 s.g ++ beBytes 4 s.h

/-- Lower-case hexadecimal digit. -/
def hexDigit (n : Nat) : Char := "0123456789abcdef".data.getD n '0'

/-- The verb %x applied to a byte array: two lower-case digits per byte. -/
def hexBytes : List Nat → List Char
  | [] => []
  | b :: bs => hexDigit (b / 16) :: hexDigit (b % 16) :: hexBytes bs

/-- UTF-8 bytes of one character. -/
def utf8Char (c : Char) : List Nat :=
  let n := c.toNat
  if n < 128 then [n]
  else if n < 2048 then [192 + n / 64, 128 + n % 64]
  else if n < 65536 then [224 + n / 4096, 128 + n / 64 % 64, 128 + n % 64]
  else [240 + n / 262144, 128 + n / 4096 % 64, 128 + n / 64 % 64, 128 + n % 64]

/-- The conversion []byte(s). -/
def utf8Bytes (s : String) : List Nat := s.data.flatMap utf8Char

/-! ## Formatting: the verb %d and the JSON encoding of the block data -/

/-- The verb %d of fmt.Sprintf on an integer. -/
def fmtInt (i : Int) : String :=
  if i < 0 then "-" ++ Nat.repr i.natAbs else Nat.repr i.toNat

/-- The escape sequence \u00XX of a byte below 0x80. -/
def jsonU00 (n : Nat) : List Char :=
  ['\\', 'u', '0', '0', hexDigit (n / 16), hexDigit (n % 16)]

/-- The encoding of one character inside a JSON string, as encoding/json writes it with HTML
escaping on (the default of json.Marshal). -/
def jsonEscapeChar (c : Char) : List Char :=
  if c = '\\' then ['\\', '\\']
  else if c = '"' then ['\\', '"']
  else if c = '\x08' then ['\\', 'b']
  else if c = '\x0c' then ['\\', 'f']
  else if c = '\n' then ['\\', 'n']
  else if c = '\r' then ['\\', 'r']
  else if c = '\t' then ['\\', 't']
  else if c.toNat < 32 ∨ c = '<' ∨ c = '>' ∨ c = '&' then jsonU00 c.toNat
  else if c.toNat = 8232 then ['\\', 'u', '2', '0', '2', '8']
  else if c.toNat = 8233 then ['\\', 'u', '2', '0', '2', '9']
  else [c]

/-- A JSON string literal: the quoted, escaped text. -/
def jsonString (s : String) : String :=
  ⟨'"' :: (s.data.flatMap jsonEscapeChar ++ ['"'])⟩

/-- The application record carried by a block. -/
structure BlockData where
  Location : String
  WaveHeight : Int
deriving DecidableEq, Repr

/-- The type Block of block.go. -/
structure Block where
  Data : BlockData
  Hash : String
  PreviousHash : String
  Timestamp : Int
  Height : Int
  Pow : Int
deriving DecidableEq, Repr

/-- The type Blockchain of chain.go (the mutex is not part of the value). -/
structure Blockchain where
  Chain : List Block
  Difficulty : Int
deriving DecidableEq, Repr

/-- The result of json.Marshal on a BlockData; it never fails on this type. -/
def marshalBlockData (d : BlockData) : String :=
  "\x7b\"location\":" ++ jsonString d.Location ++ ",\"wave_height\":" ++ fmtInt d.WaveHeight ++
    "\x7d"

/-- The string that calculateHash hashes: the result of
Sprintf("%s%s%d%d%d", PreviousHash, data, Timestamp, Height, Pow). -/
def hashInput (b : Block) : String :=
  b.PreviousHash ++ marshalBlockData b.Data ++ fmtInt b.Timestamp ++ fmtInt b.Height ++
    fmtInt b.Pow

/-- The method calculateHash: the SHA-256 digest of the hash input in lower-case hexadecimal. -/
def calculateHash (b : Block) : String :=
  ⟨hexBytes (sha256Sum256 (utf8Bytes (hashInput b)))⟩

/-- Arithmetic of the Go type int (64 bits, two's complement): the value of a result. -/
def wrapInt64 (x : Int) : Int :=
  (x + 9223372036854775808) % 18446744073709551616 - 9223372036854775808

/-- The values of the Go type int. -/
def inInt64 (x : Int) : Prop := -9223372036854775808 ≤ x ∧ x ≤ 9223372036854775807

instance (x : Int) : Decidable (inInt64 x) := by unfold inInt64; infer_instance

/-- The call strings.HasPrefix(s, strings.Repeat("0", n)). -/
def hasZeroPrefix (s : String) (n : Nat) : Bool :=
  (List.replicate n '0').isPrefixOf s.data

/-- The method mine. The loop runs while the hash lacks the target prefix; each turn increments
Pow and recomputes the hash. `fuel` bounds the number of evaluations of the loop condition;
strings.Repeat panics on a negative count. -/
def mine : Nat → Int → Block → Option Block
  | 0, _, _ => none
  | fuel + 1, difficulty, b =>
    if difficulty < 0 then none
    else if hasZeroPrefix b.Hash difficulty.toNat then some b
    else
      let b1 := { b with Pow := wrapInt64 (b.Pow + 1) }
      mine fuel difficulty { b1 with Hash := calculateHash b1 }

/-- The function NewBlockchain, at clock reading `now`. -/
def NewBlockchain (now : Int) (difficulty : Int) : Blockchain :=
  let genesisBlock : Block :=
    { Data := ⟨"", 0⟩, Hash := "0", PreviousHash := "", Timestamp := now, Height := 0, Pow := 0 }
  { Chain := [{ genesisBlock with Hash := calculateHash genesisBlock }], Difficulty := difficulty }

/-- The method AppendBlock, at clock reading `now`. Indexing the tip of an empty chain panics. -/
def AppendBlock (fuel : Nat) (now : Int) (location : String) (waveHeight : Int)
    (b : Blockchain) : Option Blockchain :=
  match b.Chain.getLast? with
  | none => none
  | some lastBlock =>
    let newBlock : Block :=
      { Data := ⟨location, waveHeight⟩, Hash := "", PreviousHash := lastBlock.Hash,
        Timestamp := now, Height := wrapInt64 (lastBlock.Height + 1), Pow := 0 }
    match mine fuel b.Difficulty newBlock with
    | none => none
    | some mined => some { b with Chain := b.Chain ++ [mined] }

/-- The block that AppendBlock builds on the tip `lastBlock` and hands to mine. -/
def unminedBlock (lastBlock : Block) (now : Int) (location : String) (waveHeight : Int) : Block :=
  { Data := ⟨location, waveHeight⟩, Hash := "", PreviousHash := lastBlock.Hash,
    Timestamp := now, Height := wrapInt64 (lastBlock.Height + 1), Pow := 0 }

/-- The genesis block that NewBlockchain builds at clock reading `now`. -/
def genesisAt (now : Int) : Block :=
  { Data := ⟨"", 0⟩, Hash := calculateHash
      { Data := ⟨"", 0⟩, Hash := "0", PreviousHash := "", Timestamp := now, Height := 0, Pow := 0 },
    PreviousHash := "", Timestamp := now, Height := 0, Pow := 0 }

/-- The three checks of the loop body of IsValid on a block and its predecessor. -/
def linkOk (previousBlock currentBlock : Block) : Bool :=
  if currentBlock.Height ≠ wrapInt64 (previousBlock.Height + 1) then false
  else if currentBlock.Hash ≠ calculateHash currentBlock then false
  else if currentBlock.PreviousHash ≠ previousBlock.Hash then false
  else true

/-- The loop of IsValid from index i on, `previousBlock` being the block at index i-1. -/
def isValidFrom : Block → List Block → Bool
  | _, [] => true
  | previousBlock, currentBlock :: rest =>
    if linkOk previousBlock currentBlock then isValidFrom currentBlock rest else false

/-- The method IsValid: the loop starts at index 1. -/
def IsValid (b : Blockchain) : Bool :=
  match b.Chain with
  | [] => true
  | first :: rest => isValidFrom first rest

/-- The receive step of readData on a decoded snapshot `chain`: the node's ledger afterwards. -/
def readData (myChain chain : Blockchain) : Blockchain :=
  if chain.Chain.length > myChain.Chain.length then chain else myChain

/-! ## The wire format: encoding/json on the type Blockchain -/

/-- The result of json.Marshal on a Block: the fields in declaration order under their tags. -/
def marshalBlock (b : Block) : String :=
  "\x7b\"data\":" ++ marshalBlockData b.Data ++ ",\"hash\":" ++ jsonString b.Hash ++
    ",\"previous_hash\":" ++ jsonString b.PreviousHash ++ ",\"timestamp\":" ++ fmtInt b.Timestamp ++
    ",\"height\":" ++ fmtInt b.Height ++ ",\"pow\":" ++ fmtInt b.Pow ++ "\x7d"

/-- The elements of a JSON array, separated by commas. -/
def marshalBlocks : List Block → String
  | [] => ""
  | [b] => marshalBlock b
  | b :: c :: rest => marshalBlock b ++ "," ++ marshalBlocks (c :: rest)

/-- The result of json.Marshal on a Blockchain. The empty chain stands for the nil slice, which
is written null. -/
def marshalBlockchain (b : Blockchain) : String :=
  "\x7b\"chain\":" ++ (if b.Chain = [] then "null" else "[" ++ marshalBlocks b.Chain ++ "]") ++
    ",\"difficulty\":" ++ fmtInt b.Difficulty ++ "\x7d"

/-- The result of json.Marshal on a Blockchain whose chain is an empty slice that is not nil. -/
def marshalEmptyChain (difficulty : Int) : String :=
  "\x7b\"chain\":[],\"difficulty\":" ++ fmtInt difficulty ++ "\x7d"

/-- A JSON value as the decoder reads it; a number keeps its literal. -/
inductive Json where
  | null
  | bool (b : Bool)
  | num (literal : List Char)
  | str (s : List Char)
  | arr (elems : List Json)
  | obj (members : List (List Char × Json))

/-- The white space of JSON. -/
def isWs (c : Char) : Bool := c = ' ' || c = '\t' || c = '\r' || c = '\n'

/-- The input after its leading white space. -/
def skipWs : List Char → List Char
  | [] => []
  | c :: cs => if isWs c then skipWs cs else c :: cs

/-- The value of a hexadecimal digit. -/
def hexVal (c : Char) : Option Nat :=
  if '0' ≤ c ∧ c ≤ '9' then some (c.toNat - 48)
  else if 'a' ≤ c ∧ c ≤ 'f' then some (c.toNat - 87)
  else if 'A' ≤ c ∧ c ≤ 'F' then some (c.toNat - 55)
  else none

/-- The code unit of an escape \uXXXX. -/
def hex4 (a b c d : Char) : Option Nat :=
  match hexVal a, hexVal b, hexVal c, hexVal d with
  | some x, some y, some z, some w => some (((x * 16 + y) * 16 + z) * 16 + w)
  | _, _, _, _ => none

/-- The replacement character U+FFFD. -/
def replacementChar : Char := Char.ofNat 65533

/-- The character of a one-letter escape. -/
def escapeLetter (e : Char) : Option Char :=
  if e = '"' then some '"'
  else if e = '\\' then some '\\'
  else if e = '/' then some '/'
  else if e = 'b' then some '\x08'
  else if e = 'f' then some '\x0c'
  else if e = 'n' then some '\n'
  else if e = 'r' then some '\r'
  else if e = 't' then some '\t'
  else none

/-- The second half of a surrogate pair at the head: an escape \uXXXX in the range of low
surrogates, and what follows it. -/
def lowSurrogate : List Char → Option (Nat × List Char)
  | b :: u :: l1 :: l2 :: l3 :: l4 :: rest =>
    if b = '\\' ∧ u = 'u' then
      match hex4 l1 l2 l3 l4 with
      | some v => if 56320 ≤ v ∧ v < 57344 then some (v, rest) else none
      | none => none
    else none
  | _ => none

/-- The character that an escape \uXXXX of code unit `u` reads as, and what follows it: a first
half of a surrogate pair takes the second half that follows, any other surrogate reads as
U+FFFD. -/
def unicodeEscape (u : Nat) (rest : List Char) : Char × List Char :=
  if 55296 ≤ u ∧ u < 57344 then
    match (if u < 56320 then lowSurrogate rest else none) with
    | some (v, rest2) => (Char.ofNat (65536 + (u - 55296) * 1024 + (v - 56320)), rest2)
    | none => (replacementChar, rest)
  else (Char.ofNat u, rest)

/-- One character of a string literal, `c` followed by `cs`: the closing quote ends the literal;
otherwise the character read and the input left, or nothing on a syntax error (a control
character, an unknown or truncated escape). -/
def stringStep (c : Char) (cs : List Char) : Option (Option (Char × List Char)) :=
  if c = '"' then some none
  else if c = '\\' then
    match cs with
    | [] => none
    | e :: rest =>
      if e = 'u' then
        match rest with
        | h1 :: h2 :: h3 :: h4 :: rest1 =>
          match hex4 h1 h2 h3 h4 with
          | none => none
          | some u => some (some (unicodeEscape u rest1))
        | _ => none
      else
        match escapeLetter e with
        | some x => some (some (x, rest))
        | none => none
  else if c.toNat < 32 then none
  else some (some (c, cs))

/-- The text of a string literal after its opening quote, unquoted, and what follows the closing
quote; `fuel` bounds the number of characters read. -/
def parseStringFuel : Nat → List Char → Option (List Char × List Char)
  | 0, _ => none
  | _ + 1, [] => none
  | fuel + 1, c :: cs =>
    match stringStep c cs with
    | none => none
    | some none => some ([], cs)
    | some (some (x, rest)) => (parseStringFuel fuel rest).map fun r => (x :: r.1, r.2)

/-- A string literal after its opening quote. -/
def parseStringBody (cs : List Char) : Option (List Char × List Char) :=
  parseStringFuel cs.length cs

/-- The longest run of decimal digits at the head. -/
def spanDigits : List Char → List Char × List Char
  | [] => ([], [])
  | c :: cs =>
    if c.isDigit then ((spanDigits cs).1.cons c, (spanDigits cs).2) else ([], c :: cs)

/-- The exponent of a number literal, if any. -/
def scanExp (lit cs : List Char) : Option (List Char × List Char) :=
  match cs with
  | e :: t =>
    if e = 'e' ∨ e = 'E' then
      match t with
      | s :: t2 =>
        if s = '+' ∨ s = '-' then
          if (spanDigits t2).1 = [] then none
          else some (lit ++ e :: s :: (spanDigits t2).1, (spanDigits t2).2)
        else if (spanDigits t).1 = [] then none
        else some (lit ++ e :: (spanDigits t).1, (spanDigits t).2)
      | [] => none
    else some (lit, cs)
  | [] => some (lit, cs)

/-- The fraction of a number literal, if any, then its exponent. -/
def scanFrac (lit cs : List Char) : Option (List Char × List Char) :=
  match cs with
  | c :: t =>
    if c = '.' then
      if (spanDigits t).1 = [] then none
      else scanExp (lit ++ '.' :: (spanDigits t).1) (spanDigits t).2
    else scanExp lit cs
  | [] => scanExp lit cs

/-- The integer part of a number literal after its sign: 0, or a digit 1 to 9 and digits. -/
def scanIntPart (sign cs : List Char) : Option (List Char × List Char) :=
  match cs with
  | c :: t =>
    if c = '0' then scanFrac (sign ++ ['0']) t
    else if c.isDigit then scanFrac (sign ++ c :: (spanDigits t).1) (spanDigits t).2
    else none
  | [] => none

/-- A number literal at the head, and what follows it. -/
def scanNumber : List Char → Option (List Char × List Char)
  | [] => none
  | c :: t => if c = '-' then scanIntPart ['-'] t else scanIntPart [] (c :: t)

/-- The nesting limit of the scanner of encoding/json. -/
def maxNestingDepth : Nat := 10000

mutual

/-- A JSON value at the head of input without leading white space, inside `depth` open
containers. -/
def parseValue : Nat → Nat → List Char → Option (Json × List Char)
  | 0, _, _ => none
  | _ + 1, _, [] => none
  | fuel + 1, depth, c :: t =>
    if c = '\x7b' then
      if maxNestingDepth ≤ depth then none
      else
        match skipWs t with
        | [] => none
        | e :: r =>
          if e = '\x7d' then some (Json.obj [], r)
          else (parseMembers fuel (depth + 1) (e :: r)).map fun m => (Json.obj m.1, m.2)
    else if c = '[' then
      if maxNestingDepth ≤ depth then none
      else
        match skipWs t with
        | [] => none
        | e :: r =>
          if e = ']' then some (Json.arr [], r)
          else (parseElements fuel (depth + 1) (e :: r)).map fun m => (Json.arr m.1, m.2)
    else if c = '"' then (parseStringBody t).map fun s => (Json.str s.1, s.2)
    else if c = 't' then
      if t.take 3 = ['r', 'u', 'e'] then some (Json.bool true, t.drop 3) else none
    else if c = 'f' then
      if t.take 4 = ['a', 'l', 's', 'e'] then some (Json.bool false, t.drop 4) else none
    else if c = 'n' then
      if t.take 3 = ['u', 'l', 'l'] then some (Json.null, t.drop 3) else none
    else (scanNumber (c :: t)).map fun n => (Json.num n.1, n.2)

/-- The members of an object from the first key on, up to the closing brace. -/
def parseMembers : Nat → Nat → List Char → Option (List (List Char × Json) × List Char)
  | 0, _, _ => none
  | _ + 1, _, [] => none
  | fuel + 1, depth, c :: t =>
    if c = '"' then
      match parseStringBody t with
      | none => none
      | some (key, r) =>
        match skipWs r with
        | [] => none
        | colon :: r2 =>
          if colon = ':' then
            match parseValue fuel depth (skipWs r2) with
            | none => none
            | some (v, r3) =>
              match skipWs r3 with
              | [] => none
              | e :: r4 =>
                if e = ',' then
                  (parseMembers fuel depth (skipWs r4)).map fun m => ((key, v) :: m.1, m.2)
                else if e = '\x7d' then some ([(key, v)], r4)
                else none
          else none
    else none

/-- The elements of an array from the first one on, up to the closing bracket. -/
def parseElements : Nat → Nat → List Char → Option (List Json × List Char)
  | 0, _, _ => none
  | fuel + 1, depth, cs =>
    match parseValue fuel depth cs with
    | none => none
    | some (v, r) =>
      match skipWs r with
      | [] => none
      | e :: r2 =>
        if e = ',' then (parseElements fuel depth (skipWs r2)).map fun m => (v :: m.1, m.2)
        else if e = ']' then some ([v], r2)
        else none

end

/-- A whole input as one JSON value between optional white space. -/
def parseJson (cs : List Char) : Option Json :=
  match parseValue (cs.length + 1) 0 (skipWs cs) with
  | some (v, r) => if skipWs r = [] then some v else none
  | none => none

/-- The folding of a key that the decoder applies before it compares it with a field name:
ASCII letters to upper case, and the two characters outside ASCII whose case folding is an
ASCII letter (U+017F to S, U+212A to K). Every field name here is ASCII. -/
def foldChar (c : Char) : Char :=
  if 'a' ≤ c ∧ c ≤ 'z' then Char.ofNat (c.toNat - 32)
  else if c.toNat = 383 then 'S'
  else if c.toNat = 8490 then 'K'
  else c

/-- Whether a key of the input names the field tagged `name`. -/
def keyMatches (key : List Char) (name : String) : Bool :=
  key.map foldChar = name.data.map foldChar

/-- The value of a run of decimal digits. -/
def digitsValue (ds : List Char) : Nat :=
  ds.foldl (fun acc c => 10 * acc + (c.toNat - 48)) 0

/-- A value in the range of int64, or nothing. -/
def checkInt64 (v : Int) : Option Int :=
  if -9223372036854775808 ≤ v ∧ v ≤ 9223372036854775807 then some v else none

/-- The value of strconv.ParseInt(literal, 10, 64) on a number literal: a literal with a fraction
or an exponent, or out of the range of int64, is an error. -/
def parseInt64 (literal : List Char) : Option Int :=
  match literal with
  | [] => none
  | c :: t =>
    if c = '-' then
      if t = [] ∨ t.all Char.isDigit = false then none else checkInt64 (-(digitsValue t : Int))
    else if (c :: t).all Char.isDigit = false then none
    else checkInt64 (digitsValue (c :: t) : Int)

/-- Decoding into a field of type int or int64 that holds `old`: null leaves it. -/
def decodeInt (old : Int) : Json → Option Int
  | Json.null => some old
  | Json.num literal => parseInt64 literal
  | _ => none

/-- Decoding into a field of type string that holds `old`: null leaves it. -/
def decodeString (old : String) : Json → Option String
  | Json.null => some old
  | Json.str s => some ⟨s⟩
  | _ => none

/-- One member of an object decoded into a BlockData; an unknown key is skipped. -/
def decodeBlockDataMember (old : BlockData) (m : List Char × Json) : Option BlockData :=
  if keyMatches m.1 "location" then
    (decodeString old.Location m.2).map fun s => { old with Location := s }
  else if keyMatches m.1 "wave_height" then
    (decodeInt old.WaveHeight m.2).map fun n => { old with WaveHeight := n }
  else some old

/-- The members of an object decoded in order into a value. -/
def decodeMembers {α : Type} (f : α → List Char × Json → Option α) :
    α → List (List Char × Json) → Option α
  | old, [] => some old
  | old, m :: ms =>
    match f old m with
    | none => none
    | some next => decodeMembers f next ms

/-- Decoding into a BlockData that holds `old`: null leaves it. -/
def decodeBlockData (old : BlockData) : Json → Option BlockData
  | Json.null => some old
  | Json.obj members => decodeMembers decodeBlockDataMember old members
  | _ => none

/-- One member of an object decoded into a Block. -/
def decodeBlockMember (old : Block) (m : List Char × Json) : Option Block :=
  if keyMatches m.1 "data" then
    (decodeBlockData old.Data m.2).map fun d => { old with Data := d }
  else if keyMatches m.1 "hash" then
    (decodeString old.Hash m.2).map fun s => { old with Hash := s }
  else if keyMatches m.1 "previous_hash" then
    (decodeString old.PreviousHash m.2).map fun s => { old with PreviousHash := s }
  else if keyMatches m.1 "timestamp" then
    (decodeInt old.Timestamp m.2).map fun n => { old with Timestamp := n }
  else if keyMatches m.1 "height" then
    (decodeInt old.Height m.2).map fun n => { old with Height := n }
  else if keyMatches m.1 "pow" then
    (decodeInt old.Pow m.2).map fun n => { old with Pow := n }
  else some old

/-- Decoding into a Block that holds `old`: null leaves it. -/
def decodeBlock (old : Block) : Json → Option Block
  | Json.null => some old
  | Json.obj members => decodeMembers decodeBlockMember old members
  | _ => none

/-- The zero value of Block. -/
def zeroBlock : Block :=
  { Data := ⟨"", 0⟩, Hash := "", PreviousHash := "", Timestamp := 0, Height := 0, Pow := 0 }

/-- The elements of an array decoded into a slice whose backing array holds `backing`: element i
is decoded into the i-th block of the backing array, or into the zero value past its end (memory
that was never written). -/
def decodeBlocks : List Block → List Json → Option (List Block)
  | _, [] => some []
  | backing, e :: es =>
    match decodeBlock (backing.headD zeroBlock) e with
    | none => none
    | some b => (decodeBlocks backing.tail es).map fun bs => b :: bs

/-- Decoding into a field of type []Block. The backing array holds the blocks `held` of the
slice and then the blocks `spare` beyond its length. The result is the slice and the blocks
beyond its length: null and the empty array give a new empty slice; an array decodes element by
element into the backing array and sets the length, the blocks past it staying where they
are. -/
def decodeChain (held spare : List Block) : Json → Option (List Block × List Block)
  | Json.null => some ([], [])
  | Json.arr [] => some ([], [])
  | Json.arr (e :: es) =>
    (decodeBlocks (held ++ spare) (e :: es)).map fun bs =>
      (bs, (held ++ spare).drop (e :: es).length)
  | _ => none

/-- A variable of type Blockchain while json.Unmarshal decodes into it: its value, and the blocks
that the backing array of its slice holds beyond the length of the slice. -/
structure Decoding where
  value : Blockchain
  spare : List Block

/-- One member of an object decoded into a Blockchain. -/
def decodeBlockchainMember (old : Decoding) (m : List Char × Json) : Option Decoding :=
  if keyMatches m.1 "chain" then
    (decodeChain old.value.Chain old.spare m.2).map fun c =>
      { value := { old.value with Chain := c.1 }, spare := c.2 }
  else if keyMatches m.1 "difficulty" then
    (decodeInt old.value.Difficulty m.2).map fun n =>
      { old with value := { old.value with Difficulty := n } }
  else some old

/-- Decoding into a Blockchain: null leaves it. -/
def decodeBlockchain (old : Decoding) : Json → Option Decoding
  | Json.null => some old
  | Json.obj members => decodeMembers decodeBlockchainMember old members
  | _ => none

/-- The call json.Unmarshal([]byte(str), &chain) on a fresh variable chain: the decoded value when
the error is nil. -/
def unmarshalBlockchain (str : String) : Option Blockchain :=
  match parseJson str.data with
  | none => none
  | some v => (decodeBlockchain ⟨⟨[], 0⟩, []⟩ v).map fun d => d.value

/-- One turn of the loop of readData on the string `str` that ReadString returned, as the
node's ledger afterwards. A string without the final newline came with an error (the stream
ended) and readData returns before the loop body; an empty line and a line that json.Unmarshal
rejects are skipped; a decoded snapshot goes through the receive step. -/
def readDataLine (myChain : Blockchain) (str : String) : Blockchain :=
  if str.data.getLast? ≠ some '\n' then myChain
  else if str = "" ∨ str = "\n" then myChain
  else
    match unmarshalBlockchain str with
    | none => myChain
    | some chain => readData myChain chain

/-- What the node reacts to: a payload submitted locally (the write path, with the bound on
mining and the clock reading) or a decoded snapshot read from a peer. -/
inductive Event where
  | append (fuel : Nat) (now : Int) (location : String) (waveHeight : Int)
  | receive (chain : Blockchain)

/-- One step of the node on its ledger. -/
def step (myChain : Blockchain) : Event → Option Blockchain
  | .append fuel now location waveHeight => AppendBlock fuel now location waveHeight myChain
  | .receive chain => some (readData myChain chain)

/-- The ledger after a sequence of events, when every step returns. -/
def run : Blockchain → List Event → Option Blockchain
  | myChain, [] => some myChain
  | myChain, e :: es =>
    match step myChain e with
    | none => none
    | some next => run next es

/-- Whether an event is a local append. -/
def Event.isAppend : Event → Bool
  | .append _ _ _ _ => true
  | .receive _ => false

/-! ## Definitions used in the statements and proofs -/

/-- What IsValid reads of a block: its height, both stored hashes and its recomputed hash. -/
def sameForValidation (b c : Block) : Prop :=
  b.Height = c.Height ∧ b.Hash = c.Hash ∧ b.PreviousHash = c.PreviousHash ∧
    calculateHash b = calculateHash c

/-- What follows a value inside an object: a comma or the closing brace. -/
def endsField (c : Char) : Prop := c = ',' ∨ c = '\x7d'

/-- A string literal followed by `tail`. -/
def stringL (s : String) (tail : List Char) : List Char :=
  '"' :: (s.data.flatMap jsonEscapeChar ++ '"' :: tail)

/-- An integer followed by `tail`. -/
def intL (i : Int) (tail : List Char) : List Char := (fmtInt i).data ++ tail

/-- A key and its colon followed by `tail`. -/
def keyL (k : String) (tail : List Char) : List Char := '"' :: (k.data ++ '"' :: ':' :: tail)

/-- An encoded BlockData followed by `tail`. -/
def dataL (d : BlockData) (tail : List Char) : List Char :=
  '\x7b' :: keyL "location" (stringL d.Location (',' :: keyL "wave_height"
    (intL d.WaveHeight ('\x7d' :: tail))))

/-- An encoded Block followed by `tail`. -/
def blockL (b : Block) (tail : List Char) : List Char :=
  '\x7b' :: keyL "data" (dataL b.Data (',' ::
    keyL "hash" (stringL b.Hash (',' ::
    keyL "previous_hash" (stringL b.PreviousHash (',' ::
    keyL "timestamp" (intL b.Timestamp (',' ::
    keyL "height" (intL b.Height (',' ::
    keyL "pow" (intL b.Pow ('\x7d' :: tail))))))))))))

/-- The encoded elements of a non-empty array of blocks with the closing bracket, followed by
`tail`. -/
def blocksL : List Block → List Char → List Char
  | [], tail => ']' :: tail
  | [b], tail => blockL b (']' :: tail)
  | b :: c :: rest, tail => blockL b (',' :: blocksL (c :: rest) tail)

/-- An encoded Blockchain followed by `tail`. -/
def chainL (b : Blockchain) (tail : List Char) : List Char :=
  '\x7b' :: keyL "chain"
    ((if b.Chain = [] then fun t => 'n' :: 'u' :: 'l' :: 'l' :: t
      else fun t => '[' :: blocksL b.Chain t)
      (',' :: keyL "difficulty" (intL b.Difficulty ('\x7d' :: tail))))

/-- The JSON value of an encoded BlockData. -/
def blockDataJson (d : BlockData) : Json :=
  Json.obj [("location".data, Json.str d.Location.data),
    ("wave_height".data, Json.num (fmtInt d.WaveHeight).data)]

/-- The JSON value of an encoded Block. -/
def blockJson (b : Block) : Json :=
  Json.obj [("data".data, blockDataJson b.Data), ("hash".data, Json.str b.Hash.data),
    ("previous_hash".data, Json.str b.PreviousHash.data),
    ("timestamp".data, Json.num (fmtInt b.Timestamp).data),
    ("height".data, Json.num (fmtInt b.Height).data),
    ("pow".data, Json.num (fmtInt b.Pow).data)]

/-- The JSON value of an encoded Blockchain. -/
def blockchainJson (b : Blockchain) : Json :=
  Json.obj [("chain".data, if b.Chain = [] then Json.null else Json.arr (b.Chain.map blockJson)),
    ("difficulty".data, Json.num (fmtInt b.Difficulty).data)]

/-- A key without characters to escape. -/
def plainKey (k : String) : Prop := k.data.flatMap jsonEscapeChar = k.data

instance (k : String) : Decidable (plainKey k) := by unfold plainKey; infer_instance

/-- The integers of a block are values of the Go types int and int64. -/
def Block.intsInRange (b : Block) : Prop :=
  inInt64 b.Data.WaveHeight ∧ inInt64 b.Timestamp ∧ inInt64 b.Height ∧ inInt64 b.Pow

/-- The integers of a ledger are values of the Go types int and int64. -/
def Blockchain.intsInRange (b : Blockchain) : Prop :=
  (∀ x ∈ b.Chain, x.intsInRange) ∧ inInt64 b.Difficulty

instance (b : Block) : Decidable b.intsInRange := by unfold Block.intsInRange; infer_instance

instance (b : Blockchain) : Decidable b.intsInRange := by
  unfold Blockchain.intsInRange; infer_instance

/-! ## Examples used below -/

/-- A block with the given position and no payload. -/
def plainBlock (hash previousHash : String) (height : Int) : Block :=
  { Data := ⟨"", 0⟩, Hash := hash, PreviousHash := previousHash, Timestamp := 0,
    Height := height, Pow := 0 }

/-- A snapshot of two blocks that skips a height and carries difficulty 0. -/
def brokenSnapshot : Blockchain :=
  { Chain := [plainBlock "aa" "" 0, plainBlock "bb" "cc" 7], Difficulty := 0 }

/-- The block that AppendBlock hands to mine on top of a ledger whose tip hashes to the genesis
hash of clock reading 1700000000. -/
def pierBlock : Block :=
  { Data := ⟨"Pier7", 3⟩, Hash := "",
    PreviousHash := "b4a87b109ab139fa34501c0f133e494e62606fcd5253afcd89a7b31d8b2caf37",
    Timestamp := 1700000001, Height := 1, Pow := 0 }

/-- A ledger of three blocks, as two appends at difficulty 1 build it. -/
def pierSnapshot : Blockchain :=
  { Chain :=
      [{ Data := ⟨"", 0⟩,
         Hash := "b4a87b109ab139fa34501c0f133e494e62606fcd5253afcd89a7b31d8b2caf37",
         PreviousHash := "", Timestamp := 1700000000, Height := 0, Pow := 0 },
       { Data := ⟨"Pier7", 3⟩,
         Hash := "0d791e3d0e9cd2094033643463745ea965adc7dbb94bd887147218ad64ec6cbe",
         PreviousHash := "b4a87b109ab139fa34501c0f133e494e62606fcd5253afcd89a7b31d8b2caf37",
         Timestamp := 1700000001, Height := 1, Pow := 10 },
       { Data := ⟨"Pier8", 4⟩,
         Hash := "04243639b5aaa636012e7737402517ef6a34d723932cc33e9f65550e751f081d",
         PreviousHash := "0d791e3d0e9cd2094033643463745ea965adc7dbb94bd887147218ad64ec6cbe",
         Timestamp := 1700000002, Height := 2, Pow := 41 }],
    Difficulty := 1 }

/-- A ledger of two blocks that passes IsValid and whose tip is at the largest height of int. -/
def topSnapshot : Blockchain :=
  { Chain :=
      [plainBlock "aa" "" 9223372036854775806,
       { Data := ⟨"", 0⟩,
         Hash := "7655ebbc24810793eb3886cd2a7c86e072ea8819fe892609fa46dc7c65f98a16",
         PreviousHash := "aa", Timestamp := 0, Height := 9223372036854775807, Pow := 0 }],
    Difficulty := 1 }

/-- The block that AppendBlock adds to `topSnapshot` for the payload Pier7 at clock reading
1700000022. -/
def topMined : Block :=
  { Data := ⟨"Pier7", 3⟩,
    Hash := "03a71f7dee5585fc42debbecb99938717e9b4a05b1de1fd31140364fb1bdbc1a",
    PreviousHash := "7655ebbc24810793eb3886cd2a7c86e072ea8819fe892609fa46dc7c65f98a16",
    Timestamp := 1700000022, Height := -9223372036854775808, Pow := 1 }

/-! ## The receive step -/

theorem readData_of_longer (myChain chain : Blockchain)
    (h : myChain.Chain.length < chain.Chain.length) : readData myChain chain = chain := by
  simp [readData, h]

theorem readData_of_not_longer (myChain chain : Blockchain)
    (h : ¬ myChain.Chain.length < chain.Chain.length) : readData myChain chain = myChain := by
  simp [readData, h]

/-! ## Mining -/

theorem calculateHash_congr (b c : Block) (h : hashInput b = hashInput c) :
    calculateHash b = calculateHash c := by
  simp [calculateHash, h]

/-- The stored hash is not part of what calculateHash reads. -/
theorem calculateHash_setHash (b : Block) (x : String) :
    calculateHash { b with Hash := x } = calculateHash b := rfl

/-- A call of mine that returns leaves a hash with the target prefix. -/
theorem mine_hasZeroPrefix : ∀ (fuel : Nat) (d : Int) (b b' : Block),
    mine fuel d b = some b' → 0 ≤ d ∧ hasZeroPrefix b'.Hash d.toNat = true
  | 0, _, _, _, h => by simp [mine] at h
  | fuel + 1, d, b, b', h => by
    unfold mine at h
    split_ifs at h with h1 h2
    · injection h with h
      subst h
      exact ⟨by omega, h2⟩
    · exact mine_hasZeroPrefix fuel d _ b' h

/-- The loop of mine writes Pow and Hash only. -/
theorem mine_frame : ∀ (fuel : Nat) (d : Int) (b b' : Block), mine fuel d b = some b' →
    b'.Data = b.Data ∧ b'.PreviousHash = b.PreviousHash ∧ b'.Timestamp = b.Timestamp ∧
      b'.Height = b.Height
  | 0, _, _, _, h => by simp [mine] at h
  | fuel + 1, d, b, b', h => by
    unfold mine at h
    split_ifs at h with h1 h2
    · injection h with h
      subst h
      exact ⟨rfl, rfl, rfl, rfl⟩
    · have ih := mine_frame fuel d _ b' h
      simpa using ih

/-- Either the loop body never ran, or the stored hash is the hash of the block. -/
theorem mine_hash : ∀ (fuel : Nat) (d : Int) (b b' : Block), mine fuel d b = some b' →
    b' = b ∨ b'.Hash = calculateHash b'
  | 0, _, _, _, h => by simp [mine] at h
  | fuel + 1, d, b, b', h => by
    unfold mine at h
    split_ifs at h with h1 h2
    · injection h with h
      exact Or.inl h.symm
    · right
      have key : ∀ (n : Nat) (c c' : Block), c.Hash = calculateHash c → mine n d c = some c' →
          c'.Hash = calculateHash c' := by
        intro n
        induction n with
        | zero => intro c c' _ hm; simp [mine] at hm
        | succ n ih =>
          intro c c' hc hm
          unfold mine at hm
          split_ifs at hm with h3
          · injection hm with hm
            subst hm
            exact hc
          · exact ih _ c' rfl hm
      exact key fuel _ b' rfl h

/-- More fuel does not change the result of a call that returned. -/
theorem mine_fuel_mono : ∀ (fuel extra : Nat) (d : Int) (b b' : Block),
    mine fuel d b = some b' → mine (fuel + extra) d b = some b'
  | 0, _, _, _, _, h => by simp [mine] at h
  | fuel + 1, extra, d, b, b', h => by
    rw [Nat.add_right_comm]
    unfold mine at h ⊢
    split_ifs at h ⊢ with h1 h2
    · exact h
    · exact mine_fuel_mono fuel extra d _ b' h

/-! ## Validation -/

theorem linkOk_congr (p p' c c' : Block) (hp : sameForValidation p p')
    (hc : sameForValidation c c') : linkOk p c = linkOk p' c' := by
  obtain ⟨h1, h2, _, _⟩ := hp
  obtain ⟨h3, h4, h5, h6⟩ := hc
  simp only [linkOk, h1, h2, h3, h4, h5, h6]

theorem isValidFrom_congr_head (p p' : Block) (hp : sameForValidation p p') (l : List Block) :
    isValidFrom p l = isValidFrom p' l := by
  cases l with
  | nil => rfl
  | cons c rest =>
    simp only [isValidFrom, linkOk_congr p p' c c hp ⟨rfl, rfl, rfl, rfl⟩]

theorem isValidFrom_substitute (b c : Block) (h : sameForValidation b c) (post : List Block) :
    ∀ (pre : List Block) (p : Block),
      isValidFrom p (pre ++ b :: post) = isValidFrom p (pre ++ c :: post)
  | [], p => by
    simp only [List.nil_append, isValidFrom, linkOk_congr p p b c ⟨rfl, rfl, rfl, rfl⟩ h,
      isValidFrom_congr_head b c h post]
  | x :: pre, p => by
    have ih := isValidFrom_substitute b c h post pre x
    show (if linkOk p x then isValidFrom x (pre ++ b :: post) else false) =
      (if linkOk p x then isValidFrom x (pre ++ c :: post) else false)
    rw [ih]

theorem IsValid_substitute (b c : Block) (h : sameForValidation b c) (pre post : List Block)
    (d : Int) : IsValid ⟨pre ++ b :: post, d⟩ = IsValid ⟨pre ++ c :: post, d⟩ := by
  cases pre with
  | nil => simp only [IsValid, List.nil_append, isValidFrom_congr_head b c h post]
  | cons x pre => simp only [IsValid, List.cons_append, isValidFrom_substitute b c h post pre x]

/-- Validation of a chain extended by one block. -/
theorem isValidFrom_append (n : Block) : ∀ (l : List Block) (p : Block),
    isValidFrom p (l ++ [n]) = (isValidFrom p l && linkOk ((p :: l).getLast (by simp)) n)
  | [], p => by simp [isValidFrom]
  | x :: l, p => by
    have ih := isValidFrom_append n l x
    cases hx : linkOk p x <;> simp [isValidFrom, hx, ih, List.getLast_cons]

/-- Validation of a chain split at a block: the part before it, its link, and the part from it
on. -/
theorem isValidFrom_split (b : Block) (post : List Block) : ∀ (l : List Block) (p : Block),
    isValidFrom p (l ++ b :: post) =
      (isValidFrom p l && linkOk ((p :: l).getLast (by simp)) b && isValidFrom b post)
  | [], p => by
    cases hb : linkOk p b <;> simp [isValidFrom, hb]
  | x :: l, p => by
    have ih := isValidFrom_split b post l x
    cases hx : linkOk p x <;> simp [isValidFrom, hx, ih, List.getLast_cons]

theorem beBytes_length : ∀ (n x : Nat), (beBytes n x).length = n
  | 0, _ => rfl
  | n + 1, x => by simp [beBytes, beBytes_length n]

theorem hexBytes_length : ∀ (l : List Nat), (hexBytes l).length = 2 * l.length
  | [] => rfl
  | b :: bs => by simp [hexBytes, hexBytes_length bs]; omega

/-- The hash is sixty-four hexadecimal characters. -/
theorem calculateHash_length (b : Block) : (calculateHash b).length = 64 := by
  simp [calculateHash, String.length, hexBytes_length, sha256Sum256, beBytes_length]

theorem calculateHash_ne_empty (b : Block) : calculateHash b ≠ "" := by
  intro h
  have hl := calculateHash_length b
  rw [h] at hl
  simp at hl

theorem empty_ne_calculateHash (b : Block) : ¬ "" = calculateHash b :=
  fun h => calculateHash_ne_empty b h.symm

theorem NewBlockchain_eq (now difficulty : Int) :
    NewBlockchain now difficulty = ⟨[genesisAt now], difficulty⟩ := rfl

/-- AppendBlock returns as soon as the tip exists and mining returns. -/
theorem AppendBlock_eq_of_mine (fuel : Nat) (now : Int) (location : String) (waveHeight : Int)
    (b : Blockchain) (tip mined : Block) (htip : b.Chain.getLast? = some tip)
    (hmine : mine fuel b.Difficulty (unminedBlock tip now location waveHeight) = some mined) :
    AppendBlock fuel now location waveHeight b = some ⟨b.Chain ++ [mined], b.Difficulty⟩ := by
  simp only [unminedBlock] at hmine
  simp only [AppendBlock, htip, hmine]

theorem wrapInt64_succ_injective (x y : Int) (hx : inInt64 x) (hy : inInt64 y)
    (h : wrapInt64 (x + 1) = wrapInt64 (y + 1)) : x = y := by
  unfold inInt64 at hx hy
  unfold wrapInt64 at h
  omega

theorem linkOk_iff (p c : Block) :
    linkOk p c = true ↔
      c.Height = wrapInt64 (p.Height + 1) ∧ c.Hash = calculateHash c ∧
        c.PreviousHash = p.Hash := by
  unfold linkOk
  split_ifs with h1 h2 h3 <;> simp_all

theorem IsValid_cons_append (x : Block) (l : List Block) (b : Block) (post : List Block)
    (d : Int) :
    IsValid ⟨(x :: l) ++ b :: post, d⟩ =
      (isValidFrom x l && linkOk ((x :: l).getLast (by simp)) b && isValidFrom b post) := by
  simp only [IsValid, List.cons_append]
  exact isValidFrom_split b post l x

/-- At a difficulty of at least 1, a block that mine returns on the block built by AppendBlock
stores its own hash. -/
theorem mine_unmined_hash (fuel : Nat) (d : Int) (tip mined : Block) (now : Int)
    (location : String) (waveHeight : Int) (hd : 1 ≤ d)
    (h : mine fuel d (unminedBlock tip now location waveHeight) = some mined) :
    mined.Hash = calculateHash mined := by
  rcases mine_hash fuel d _ mined h with heq | hh
  · have hp := (mine_hasZeroPrefix fuel d _ mined h).2
    rw [heq] at hp
    have hpos : d.toNat = (d.toNat - 1) + 1 := by omega
    rw [hpos] at hp
    simp [hasZeroPrefix, unminedBlock, List.replicate_succ] at hp
  · exact hh

/-- At a difficulty of at least 1, AppendBlock keeps a valid ledger valid. -/
theorem AppendBlock_preserves_IsValid (fuel : Nat) (now : Int) (location : String)
    (waveHeight : Int) (b b' : Blockchain) (hd : 1 ≤ b.Difficulty) (hv : IsValid b = true)
    (h : AppendBlock fuel now location waveHeight b = some b') :
    IsValid b' = true ∧ b'.Difficulty = b.Difficulty := by
  simp only [AppendBlock] at h
  split at h
  · simp at h
  · next tip htip =>
    split at h
    · simp at h
    · next mined hm =>
      injection h with h
      subst h
      refine ⟨?_, rfl⟩
      have hm' : mine fuel b.Difficulty (unminedBlock tip now location waveHeight) =
          some mined := hm
      obtain ⟨_, h2, _, h4⟩ := mine_frame fuel _ _ mined hm'
      have hh := mine_unmined_hash fuel _ tip mined now location waveHeight hd hm'
      have hlink : linkOk tip mined = true :=
        (linkOk_iff tip mined).2 ⟨h4, hh, h2⟩
      cases hc : b.Chain with
      | nil => rw [hc] at htip; simp at htip
      | cons x l =>
        rw [hc] at htip
        have hlast : (x :: l).getLast (by simp) = tip := by
          rw [List.getLast?_eq_getLast _ (by simp)] at htip
          exact Option.some.inj htip
        have hvx : isValidFrom x l = true := by
          simpa [IsValid, hc] using hv
        show IsValid ⟨(x :: l) ++ [mined], b.Difficulty⟩ = true
        rw [IsValid_cons_append x l mined [] b.Difficulty, hlast, hvx, hlink]
        rfl

/-! ## Runs of the node -/

theorem step_length_le (c c' : Blockchain) (e : Event) (h : step c e = some c') :
    c.Chain.length ≤ c'.Chain.length := by
  cases e with
  | append fuel now location waveHeight =>
    simp only [step, AppendBlock] at h
    split at h
    · simp at h
    · split at h
      · simp at h
      · injection h with h
        subst h
        simp
  | receive chain =>
    simp only [step, readData] at h
    injection h with h
    subst h
    split_ifs with hl
    · omega
    · exact le_refl _

theorem run_length_le : ∀ (events : List Event) (c c' : Blockchain),
    run c events = some c' → c.Chain.length ≤ c'.Chain.length
  | [], c, c', h => by
    simp only [run] at h
    injection h with h
    subst h
    exact le_refl _
  | e :: es, c, c', h => by
    simp only [run] at h
    split at h
    · simp at h
    · next next hs =>
      exact le_trans (step_length_le c next e hs) (run_length_le es next c' h)

/-- At a difficulty of at least 1, a run of local appends keeps a valid ledger valid. -/
theorem run_appends_IsValid : ∀ (events : List Event) (b c : Blockchain),
    1 ≤ b.Difficulty → IsValid b = true → (∀ e ∈ events, e.isAppend = true) →
      run b events = some c → IsValid c = true
  | [], b, c, _, hv, _, h => by
    simp only [run] at h
    injection h with h
    subst h
    exact hv
  | e :: es, b, c, hd, hv, hall, h => by
    simp only [run] at h
    split at h
    · simp at h
    · next next hs =>
      have he := hall e (List.mem_cons_self _ _)
      cases e with
      | receive chain => simp [Event.isAppend] at he
      | append fuel now location waveHeight =>
        obtain ⟨hv', hd'⟩ :=
          AppendBlock_preserves_IsValid fuel now location waveHeight b next hd hv hs
        exact run_appends_IsValid es next c (by rw [hd']; exact hd) hv'
          (fun e' he' => hall e' (List.mem_cons_of_mem _ he')) h

theorem step_difficulty (c c' : Blockchain) (e : Event) (h : step c e = some c') :
    c'.Difficulty = c.Difficulty ∨
      ∃ chain, e = Event.receive chain ∧ c.Chain.length < chain.Chain.length ∧ c' = chain := by
  cases e with
  | append fuel now location waveHeight =>
    left
    simp only [step, AppendBlock] at h
    split at h
    · simp at h
    · split at h
      · simp at h
      · injection h with h
        subst h
        rfl
  | receive chain =>
    simp only [step, readData] at h
    injection h with h
    subst h
    split_ifs with hl
    · exact Or.inr ⟨chain, rfl, hl, rfl⟩
    · exact Or.inl rfl

/-! ## Reading back what the encoder writes -/

theorem hex4_u00 : ∀ n, n < 128 →
    hex4 '0' '0' (hexDigit (n / 16)) (hexDigit (n % 16)) = some n := by
  decide

/-- The string parser reads back the encoding of one character in one step. -/
theorem stringStep_escape (c : Char) (tail : List Char) :
    ∃ x xs, jsonEscapeChar c = x :: xs ∧ stringStep x (xs ++ tail) = some (some (c, tail)) := by
  unfold jsonEscapeChar
  by_cases h1 : c = '\\'
  · subst h1; exact ⟨_, _, rfl, by simp [stringStep, escapeLetter]⟩
  by_cases h2 : c = '"'
  · subst h2; exact ⟨_, _, rfl, by simp [stringStep, escapeLetter]⟩
  by_cases h3 : c = '\x08'
  · subst h3; exact ⟨_, _, rfl, by simp [stringStep, escapeLetter]⟩
  by_cases h4 : c = '\x0c'
  · subst h4; exact ⟨_, _, rfl, by simp [stringStep, escapeLetter]⟩
  by_cases h5 : c = '\n'
  · subst h5; exact ⟨_, _, rfl, by simp [stringStep, escapeLetter]⟩
  by_cases h6 : c = '\r'
  · subst h6; exact ⟨_, _, rfl, by simp [stringStep, escapeLetter]⟩
  by_cases h7 : c = '\t'
  · subst h7; exact ⟨_, _, rfl, by simp [stringStep, escapeLetter]⟩
  simp only [h1, h2, h3, h4, h5, h6, h7, if_false]
  by_cases h8 : c.toNat < 32 ∨ c = '<' ∨ c = '>' ∨ c = '&'
  · simp only [h8, if_true, jsonU00]
    refine ⟨_, _, rfl, ?_⟩
    have hn : c.toNat < 128 := by
      rcases h8 with h | h | h | h
      · omega
      · subst h; decide
      · subst h; decide
      · subst h; decide
    simp [stringStep, hex4_u00 c.toNat hn, unicodeEscape, Char.ofNat_toNat]
    omega
  simp only [h8, if_false]
  have h32 : ¬ c.toNat < 32 := fun h => h8 (Or.inl h)
  by_cases h9 : c.toNat = 8232
  · simp only [h9, if_true]
    refine ⟨_, _, rfl, ?_⟩
    have hx : hex4 '2' '0' '2' '8' = some 8232 := by decide
    have hc : Char.ofNat 8232 = c := by rw [← h9, Char.ofNat_toNat]
    simpa [stringStep, hx, unicodeEscape] using hc
  by_cases h10 : c.toNat = 8233
  · simp only [h9, h10, if_true, if_false]
    refine ⟨_, _, rfl, ?_⟩
    have hx : hex4 '2' '0' '2' '9' = some 8233 := by decide
    have hc : Char.ofNat 8233 = c := by rw [← h10, Char.ofNat_toNat]
    simpa [stringStep, hx, unicodeEscape] using hc
  simp only [h9, h10, if_false]
  exact ⟨_, _, rfl, by simp [stringStep, h1, h2, h32]⟩

/-- The string parser reads back the escaped text of a string up to the closing quote. -/
theorem parseStringFuel_escaped : ∀ (s : List Char) (extra : Nat) (tail : List Char),
    parseStringFuel (s.length + 1 + extra) (s.flatMap jsonEscapeChar ++ '"' :: tail) =
      some (s, tail)
  | [], extra, tail => by
    simp [parseStringFuel, stringStep, Nat.add_comm]
  | c :: s, extra, tail => by
    obtain ⟨x, xs, hesc, hstep⟩ := stringStep_escape c (s.flatMap jsonEscapeChar ++ '"' :: tail)
    have ih := parseStringFuel_escaped s extra tail
    have hf : (c :: s).length + 1 + extra = (s.length + 1 + extra) + 1 := by
      simp only [List.length_cons]; omega
    rw [hf, List.flatMap_cons, hesc]
    simp only [List.cons_append, List.append_assoc]
    rw [parseStringFuel, hstep]
    simp [ih]

theorem length_le_flatMap_escape : ∀ (s : List Char),
    s.length ≤ (s.flatMap jsonEscapeChar).length
  | [] => by simp
  | c :: s => by
    have ih := length_le_flatMap_escape s
    obtain ⟨x, xs, hesc, _⟩ := stringStep_escape c []
    simp only [List.flatMap_cons, List.length_append, List.length_cons, hesc]
    omega

/-- A string literal is read back as the string. -/
theorem parseStringBody_escaped (s tail : List Char) :
    parseStringBody (s.flatMap jsonEscapeChar ++ '"' :: tail) = some (s, tail) := by
  unfold parseStringBody
  have hl := length_le_flatMap_escape s
  obtain ⟨extra, he⟩ : ∃ extra, (s.flatMap jsonEscapeChar ++ '"' :: tail).length =
      s.length + 1 + extra :=
    ⟨(s.flatMap jsonEscapeChar).length - s.length + tail.length, by
      simp only [List.length_append, List.length_cons]; omega⟩
  rw [he]
  exact parseStringFuel_escaped s extra tail

/-! ### Decimal numerals -/

theorem digitsValue_append_singleton (ds : List Char) (d : Char) :
    digitsValue (ds ++ [d]) = 10 * digitsValue ds + (d.toNat - 48) := by
  simp [digitsValue, List.foldl_append]

theorem toDigitsCore_append (b : Nat) : ∀ (fuel n : Nat) (ds : List Char),
    Nat.toDigitsCore b fuel n ds = Nat.toDigitsCore b fuel n [] ++ ds
  | 0, _, _ => by simp [Nat.toDigitsCore]
  | fuel + 1, n, ds => by
    simp only [Nat.toDigitsCore]
    split_ifs with h
    · rfl
    · rw [toDigitsCore_append b fuel (n / b) (Nat.digitChar (n % b) :: ds),
        toDigitsCore_append b fuel (n / b) [Nat.digitChar (n % b)]]
      simp

theorem digitChar_isDigit : ∀ m, m < 10 →
    (Nat.digitChar m).isDigit = true ∧ (Nat.digitChar m).toNat - 48 = m ∧
      (0 < m → Nat.digitChar m ≠ '0') := by
  decide

/-- The decimal numeral of a natural number: digits only, at least one, no leading zero except
for zero itself, and the number as value. -/
theorem toDigitsCore_spec : ∀ (fuel n : Nat), n < fuel →
    (∀ c ∈ Nat.toDigitsCore 10 fuel n [], c.isDigit = true) ∧
      Nat.toDigitsCore 10 fuel n [] ≠ [] ∧
      (0 < n → (Nat.toDigitsCore 10 fuel n []).head? ≠ some '0') ∧
      digitsValue (Nat.toDigitsCore 10 fuel n []) = n
  | 0, _, h => absurd h (Nat.not_lt_zero _)
  | fuel + 1, n, h => by
    obtain ⟨hd, hv, hz⟩ := digitChar_isDigit (n % 10) (Nat.mod_lt _ (by decide))
    simp only [Nat.toDigitsCore]
    split_ifs with h0
    · have hn : n % 10 = n := by omega
      refine ⟨?_, by simp, ?_, ?_⟩
      · intro c hc
        simp only [List.mem_singleton] at hc
        rw [hc]; exact hd
      · intro hpos
        simp only [List.head?_cons, ne_eq, Option.some.injEq]
        exact hz (by omega)
      · simp only [digitsValue, List.foldl_cons, List.foldl_nil]
        omega
    · have hlt : n / 10 < fuel := by omega
      obtain ⟨i1, i2, i3, i4⟩ := toDigitsCore_spec fuel (n / 10) hlt
      rw [toDigitsCore_append]
      refine ⟨?_, by simp [i2], ?_, ?_⟩
      · intro c hc
        simp only [List.mem_append, List.mem_singleton] at hc
        rcases hc with hc | hc
        · exact i1 c hc
        · rw [hc]; exact hd
      · intro _
        have hpos : 0 < n / 10 := Nat.pos_of_ne_zero h0
        cases hcore : Nat.toDigitsCore 10 fuel (n / 10) [] with
        | nil => exact absurd hcore i2
        | cons x xs =>
          have := i3 hpos
          rw [hcore] at this
          simpa using this
      · rw [digitsValue_append_singleton, i4, hv]
        omega

theorem toDigits_zero : Nat.toDigits 10 0 = ['0'] := by decide

theorem endsField_facts (c : Char) (h : endsField c) :
    c.isDigit = false ∧ c ≠ '.' ∧ c ≠ 'e' ∧ c ≠ 'E' ∧ isWs c = false := by
  rcases h with h | h <;> subst h <;> decide

theorem isDigit_facts (c : Char) (h : c.isDigit = true) :
    c ≠ '-' ∧ c ≠ '\x7b' ∧ c ≠ '[' ∧ c ≠ '"' ∧ c ≠ 't' ∧ c ≠ 'f' ∧ c ≠ 'n' ∧ isWs c = false := by
  refine ⟨?_, ?_, ?_, ?_, ?_, ?_, ?_, ?_⟩
  all_goals first
    | (intro hc; subst hc; revert h; decide)
    | (simp only [isWs, Bool.or_eq_false_iff, decide_eq_false_iff_not]
       refine ⟨⟨⟨?_, ?_⟩, ?_⟩, ?_⟩ <;> (intro hc; subst hc; revert h; decide))

theorem spanDigits_append : ∀ (ds : List Char) (c : Char) (rest : List Char),
    (∀ d ∈ ds, d.isDigit = true) → c.isDigit = false →
      spanDigits (ds ++ c :: rest) = (ds, c :: rest)
  | [], c, rest, _, hc => by simp [spanDigits, hc]
  | d :: ds, c, rest, hds, hc => by
    have hd := hds d (List.mem_cons_self _ _)
    have ih := spanDigits_append ds c rest (fun x hx => hds x (List.mem_cons_of_mem _ hx)) hc
    simp [spanDigits, hd, ih]

theorem scanExp_end (lit : List Char) (c : Char) (rest : List Char) (hc : endsField c) :
    scanExp lit (c :: rest) = some (lit, c :: rest) := by
  obtain ⟨_, _, h3, h4, _⟩ := endsField_facts c hc
  simp [scanExp, h3, h4]

theorem scanFrac_end (lit : List Char) (c : Char) (rest : List Char) (hc : endsField c) :
    scanFrac lit (c :: rest) = some (lit, c :: rest) := by
  obtain ⟨_, h2, _, _, _⟩ := endsField_facts c hc
  simp [scanFrac, h2, scanExp_end lit c rest hc]

/-- The scanner reads back a decimal numeral that a comma or a closing brace follows. -/
theorem scanIntPart_toDigits (sign : List Char) (n : Nat) (c : Char) (rest : List Char)
    (hc : endsField c) :
    scanIntPart sign (Nat.toDigits 10 n ++ c :: rest) =
      some (sign ++ Nat.toDigits 10 n, c :: rest) := by
  obtain ⟨s1, s2, s3, _⟩ := toDigitsCore_spec (n + 1) n (Nat.lt_succ_self n)
  obtain ⟨hcd, _, _, _, _⟩ := endsField_facts c hc
  unfold Nat.toDigits
  cases hds : Nat.toDigitsCore 10 (n + 1) n [] with
  | nil => exact absurd hds s2
  | cons d ds =>
    rw [hds] at s1 s3
    have hd := s1 d (List.mem_cons_self _ _)
    by_cases hz : d = '0'
    · have hn : n = 0 := by
        by_contra hne
        exact s3 (Nat.pos_of_ne_zero hne) (by simp [hz])
      subst hn
      have h0 : Nat.toDigitsCore 10 (0 + 1) 0 [] = ['0'] := by decide
      rw [h0] at hds
      injection hds with h1 h2
      subst h1 h2
      simp [scanIntPart, scanFrac_end _ c rest hc]
    · have hsp := spanDigits_append ds c rest (fun x hx => s1 x (List.mem_cons_of_mem _ hx)) hcd
      simp [scanIntPart, hz, hd, hsp, scanFrac_end _ c rest hc]

theorem fmtInt_data (i : Int) :
    (fmtInt i).data =
      if i < 0 then '-' :: Nat.toDigits 10 i.natAbs else Nat.toDigits 10 i.toNat := by
  unfold fmtInt
  split_ifs <;> simp [Nat.repr, List.asString, String.data_append]

/-- The scanner reads back an integer written with %d. -/
theorem scanNumber_fmtInt (i : Int) (c : Char) (rest : List Char) (hc : endsField c) :
    scanNumber ((fmtInt i).data ++ c :: rest) = some ((fmtInt i).data, c :: rest) := by
  rw [fmtInt_data]
  split_ifs with hi
  · simp [scanNumber, scanIntPart_toDigits ['-'] i.natAbs c rest hc]
  · obtain ⟨s1, s2, _, _⟩ := toDigitsCore_spec (i.toNat + 1) i.toNat (Nat.lt_succ_self _)
    have hs := scanIntPart_toDigits [] i.toNat c rest hc
    unfold Nat.toDigits at hs ⊢
    cases hds : Nat.toDigitsCore 10 (i.toNat + 1) i.toNat [] with
    | nil => exact absurd hds s2
    | cons d ds =>
      rw [hds] at s1 hs
      have hd := (isDigit_facts d (s1 d (List.mem_cons_self _ _))).1
      simpa [scanNumber, hd] using hs

/-- ParseInt reads back an integer written with %d. -/
theorem parseInt64_fmtInt (i : Int) (hi : inInt64 i) : parseInt64 (fmtInt i).data = some i := by
  rw [fmtInt_data]
  unfold inInt64 at hi
  split_ifs with hneg
  · obtain ⟨s1, s2, _, s4⟩ := toDigitsCore_spec (i.natAbs + 1) i.natAbs (Nat.lt_succ_self _)
    have hall : (Nat.toDigits 10 i.natAbs).all Char.isDigit = true := by
      simpa [Nat.toDigits, List.all_eq_true] using s1
    have hv : digitsValue (Nat.toDigits 10 i.natAbs) = i.natAbs := s4
    have hne : Nat.toDigits 10 i.natAbs ≠ [] := s2
    have habs : -(i.natAbs : Int) = i := by omega
    simp only [parseInt64, if_true, hall, hne, hv, checkInt64]
    rw [habs, if_neg (by simp), if_pos hi]
  · obtain ⟨s1, s2, _, s4⟩ := toDigitsCore_spec (i.toNat + 1) i.toNat (Nat.lt_succ_self _)
    unfold Nat.toDigits
    cases hds : Nat.toDigitsCore 10 (i.toNat + 1) i.toNat [] with
    | nil => exact absurd hds s2
    | cons d ds =>
      rw [hds] at s1 s4
      have hd := (isDigit_facts d (s1 d (List.mem_cons_self _ _))).1
      have hall : (d :: ds).all Char.isDigit = true := by
        simpa [List.all_eq_true] using s1
      have hnat : (i.toNat : Int) = i := by omega
      simp only [parseInt64, hd, if_false, hall, s4, checkInt64]
      rw [hnat, if_neg (by simp), if_pos hi]

/-! ### The encoder's output as lists of characters, each piece followed by a tail -/

theorem jsonString_data (s : String) (tail : List Char) :
    (jsonString s).data ++ tail = stringL s tail := by
  simp [jsonString, stringL]

theorem marshalBlockData_data (d : BlockData) (tail : List Char) :
    (marshalBlockData d).data ++ tail = dataL d tail := by
  simp only [marshalBlockData, String.data_append, List.append_assoc]
  simp only [jsonString_data, List.cons_append, List.nil_append]
  rfl

theorem marshalBlock_data (b : Block) (tail : List Char) :
    (marshalBlock b).data ++ tail = blockL b tail := by
  simp only [marshalBlock, String.data_append, List.append_assoc]
  simp only [jsonString_data, marshalBlockData_data, List.cons_append, List.nil_append]
  rfl

theorem marshalBlocks_data : ∀ (bs : List Block) (tail : List Char), bs ≠ [] →
    (marshalBlocks bs).data ++ ']' :: tail = blocksL bs tail
  | [], _, h => absurd rfl h
  | [b], tail, _ => by
    simp only [marshalBlocks, blocksL, marshalBlock_data]
  | b :: c :: rest, tail, _ => by
    have ih := marshalBlocks_data (c :: rest) tail (List.cons_ne_nil _ _)
    simp only [marshalBlocks, blocksL, String.data_append, List.append_assoc]
    rw [ih, ← marshalBlock_data]
    rfl

theorem marshalBlockchain_data (b : Blockchain) (tail : List Char) :
    (marshalBlockchain b).data ++ tail = chainL b tail := by
  unfold marshalBlockchain chainL
  split_ifs with h
  · simp only [String.data_append, List.append_assoc]
    rfl
  · have hb := marshalBlocks_data b.Chain
      (',' :: keyL "difficulty" (intL b.Difficulty ('\x7d' :: tail))) h
    simp only [String.data_append, List.append_assoc]
    rw [← hb]
    rfl

/-! ### Parsing the encoder's output -/

theorem skipWs_cons (c : Char) (t : List Char) (h : isWs c = false) :
    skipWs (c :: t) = c :: t := by
  simp [skipWs, h]

theorem parseValue_stringL (fuel depth : Nat) (s : String) (tail : List Char) :
    parseValue (fuel + 1) depth (stringL s tail) = some (Json.str s.data, tail) := by
  rw [stringL, parseValue]
  simp [parseStringBody_escaped]

theorem fmtInt_head (i : Int) : ∃ d ds, (fmtInt i).data = d :: ds ∧ (d = '-' ∨ d.isDigit = true) := by
  rw [fmtInt_data]
  split_ifs with h
  · exact ⟨_, _, rfl, Or.inl rfl⟩
  · obtain ⟨s1, s2, _, _⟩ := toDigitsCore_spec (i.toNat + 1) i.toNat (Nat.lt_succ_self _)
    unfold Nat.toDigits
    cases hds : Nat.toDigitsCore 10 (i.toNat + 1) i.toNat [] with
    | nil => exact absurd hds s2
    | cons d ds =>
      rw [hds] at s1
      exact ⟨d, ds, rfl, Or.inr (s1 d (List.mem_cons_self _ _))⟩

theorem numeral_head_facts (d : Char) (h : d = '-' ∨ d.isDigit = true) :
    d ≠ '\x7b' ∧ d ≠ '[' ∧ d ≠ '"' ∧ d ≠ 't' ∧ d ≠ 'f' ∧ d ≠ 'n' ∧ isWs d = false := by
  rcases h with h | h
  · subst h; decide
  · obtain ⟨_, h2, h3, h4, h5, h6, h7, h8⟩ := isDigit_facts d h
    exact ⟨h2, h3, h4, h5, h6, h7, h8⟩

theorem parseValue_intL (fuel depth : Nat) (i : Int) (c : Char) (rest : List Char)
    (hc : endsField c) :
    parseValue (fuel + 1) depth (intL i (c :: rest)) =
      some (Json.num (fmtInt i).data, c :: rest) := by
  have hs := scanNumber_fmtInt i c rest hc
  obtain ⟨d, ds, hd, hdig⟩ := fmtInt_head i
  obtain ⟨h1, h2, h3, h4, h5, h6, _⟩ := numeral_head_facts d hdig
  rw [intL]
  rw [hd] at hs ⊢
  rw [List.cons_append] at hs ⊢
  rw [parseValue]
  simp [h1, h2, h3, h4, h5, h6, hs]

theorem skipWs_stringL (s : String) (tail : List Char) :
    skipWs (stringL s tail) = stringL s tail := skipWs_cons _ _ (by decide)

theorem skipWs_intL (i : Int) (tail : List Char) : skipWs (intL i tail) = intL i tail := by
  obtain ⟨d, ds, hd, hdig⟩ := fmtInt_head i
  rw [intL, hd, List.cons_append]
  exact skipWs_cons _ _ (numeral_head_facts d hdig).2.2.2.2.2.2

theorem skipWs_keyL (k : String) (tail : List Char) : skipWs (keyL k tail) = keyL k tail :=
  skipWs_cons _ _ (by decide)

/-- A member that a comma and a further member follow. -/
theorem parseMembers_comma (fuel depth : Nat) (k : String) (hk : plainKey k) (X : List Char)
    (v : Json) (k2 : String) (more : List Char) (hX : skipWs X = X)
    (hv : parseValue fuel depth X = some (v, ',' :: keyL k2 more)) :
    parseMembers (fuel + 1) depth (keyL k X) =
      (parseMembers fuel depth (keyL k2 more)).map fun m => ((k.data, v) :: m.1, m.2) := by
  have hkey := parseStringBody_escaped k.data (':' :: X)
  rw [hk] at hkey
  rw [keyL, parseMembers]
  simp only [if_true, hkey]
  rw [skipWs_cons ':' X (by decide)]
  simp only [if_true, hX, hv]
  rw [skipWs_cons ',' _ (by decide)]
  simp only [if_true, skipWs_keyL]

/-- The last member of an object. -/
theorem parseMembers_last (fuel depth : Nat) (k : String) (hk : plainKey k) (X : List Char)
    (v : Json) (rest : List Char) (hX : skipWs X = X)
    (hv : parseValue fuel depth X = some (v, '\x7d' :: rest)) :
    parseMembers (fuel + 1) depth (keyL k X) = some ([(k.data, v)], rest) := by
  have hkey := parseStringBody_escaped k.data (':' :: X)
  rw [hk] at hkey
  rw [keyL, parseMembers]
  simp only [if_true, hkey]
  rw [skipWs_cons ':' X (by decide)]
  simp only [if_true, hX, hv]
  rw [skipWs_cons '\x7d' _ (by decide)]
  simp

/-- An object whose first key follows the opening brace. -/
theorem parseValue_object (fuel depth : Nat) (k : String) (more : List Char)
    (hd : depth < maxNestingDepth) :
    parseValue (fuel + 1) depth ('\x7b' :: keyL k more) =
      (parseMembers fuel (depth + 1) (keyL k more)).map fun m => (Json.obj m.1, m.2) := by
  rw [parseValue]
  simp only [if_true, Nat.not_le.2 hd, if_false, skipWs_keyL]
  rw [keyL]
  simp

theorem skipWs_dataL (d : BlockData) (tail : List Char) : skipWs (dataL d tail) = dataL d tail :=
  skipWs_cons _ _ (by decide)

theorem skipWs_blockL (b : Block) (tail : List Char) : skipWs (blockL b tail) = blockL b tail :=
  skipWs_cons _ _ (by decide)

theorem parseValue_dataL (fuel depth : Nat) (d : BlockData) (tail : List Char)
    (hd : depth < maxNestingDepth) :
    parseValue (fuel + 4) depth (dataL d tail) = some (blockDataJson d, tail) := by
  rw [dataL, parseValue_object (fuel + 3) depth _ _ hd,
    parseMembers_comma (fuel + 2) (depth + 1) "location" (by decide) _
      (Json.str d.Location.data) "wave_height" _ (skipWs_stringL _ _)
      (parseValue_stringL (fuel + 1) _ _ _),
    parseMembers_last (fuel + 1) (depth + 1) "wave_height" (by decide) _
      (Json.num (fmtInt d.WaveHeight).data) tail (skipWs_intL _ _)
      (parseValue_intL fuel _ _ _ _ (Or.inr rfl))]
  rfl

theorem parseValue_blockL (fuel depth : Nat) (b : Block) (tail : List Char)
    (hd : depth + 1 < maxNestingDepth) :
    parseValue (fuel + 8) depth (blockL b tail) = some (blockJson b, tail) := by
  rw [blockL, parseValue_object (fuel + 7) depth _ _ (by omega),
    parseMembers_comma (fuel + 6) (depth + 1) "data" (by decide) _
      (blockDataJson b.Data) "hash" _ (skipWs_dataL _ _)
      (parseValue_dataL (fuel + 2) _ _ _ hd),
    parseMembers_comma (fuel + 5) (depth + 1) "hash" (by decide) _
      (Json.str b.Hash.data) "previous_hash" _ (skipWs_stringL _ _)
      (parseValue_stringL (fuel + 4) _ _ _),
    parseMembers_comma (fuel + 4) (depth + 1) "previous_hash" (by decide) _
      (Json.str b.PreviousHash.data) "timestamp" _ (skipWs_stringL _ _)
      (parseValue_stringL (fuel + 3) _ _ _),
    parseMembers_comma (fuel + 3) (depth + 1) "timestamp" (by decide) _
      (Json.num (fmtInt b.Timestamp).data) "height" _ (skipWs_intL _ _)
      (parseValue_intL (fuel + 2) _ _ _ _ (Or.inl rfl)),
    parseMembers_comma (fuel + 2) (depth + 1) "height" (by decide) _
      (Json.num (fmtInt b.Height).data) "pow" _ (skipWs_intL _ _)
      (parseValue_intL (fuel + 1) _ _ _ _ (Or.inl rfl)),
    parseMembers_last (fuel + 1) (depth + 1) "pow" (by decide) _
      (Json.num (fmtInt b.Pow).data) tail (skipWs_intL _ _)
      (parseValue_intL fuel _ _ _ _ (Or.inr rfl))]
  rfl

theorem skipWs_blocksL (b : Block) (bs : List Block) (tail : List Char) :
    skipWs (blocksL (b :: bs) tail) = blocksL (b :: bs) tail := by
  cases bs <;> exact skipWs_cons _ _ (by decide)

/-- The elements of an encoded array of blocks. -/
theorem parseElements_blocksL (depth : Nat) (hd : depth + 1 < maxNestingDepth) :
    ∀ (bs : List Block) (b : Block) (fuel : Nat) (tail : List Char),
      parseElements (fuel + bs.length + 9) depth (blocksL (b :: bs) tail) =
        some ((b :: bs).map blockJson, tail)
  | [], b, fuel, tail => by
    rw [blocksL]
    show parseElements ((fuel + 8) + 1) depth _ = _
    rw [parseElements, parseValue_blockL fuel depth b _ hd]
    simp only
    rw [skipWs_cons ']' _ (by decide)]
    simp
  | c :: bs, b, fuel, tail => by
    have ih := parseElements_blocksL depth hd bs c fuel tail
    rw [blocksL]
    show parseElements ((fuel + bs.length + 1 + 8) + 1) depth _ = _
    rw [parseElements, parseValue_blockL (fuel + bs.length + 1) depth b _ hd]
    simp only
    rw [skipWs_cons ',' _ (by decide)]
    simp only [if_true, skipWs_blocksL]
    have hf : fuel + bs.length + 1 + 8 = fuel + bs.length + 9 := by omega
    rw [hf, ih]
    simp

theorem parseValue_null (fuel depth : Nat) (tail : List Char) :
    parseValue (fuel + 1) depth ('n' :: 'u' :: 'l' :: 'l' :: tail) = some (Json.null, tail) := by
  rw [parseValue]
  simp

theorem parseValue_blocksL (fuel depth : Nat) (hd : depth + 2 < maxNestingDepth) (b : Block)
    (bs : List Block) (tail : List Char) :
    parseValue (fuel + bs.length + 10) depth ('[' :: blocksL (b :: bs) tail) =
      some (Json.arr ((b :: bs).map blockJson), tail) := by
  show parseValue ((fuel + bs.length + 9) + 1) depth _ = _
  rw [parseValue]
  have hne : ∃ e r, blocksL (b :: bs) tail = e :: r ∧ e ≠ ']' := by
    cases bs <;> exact ⟨_, _, rfl, by decide⟩
  obtain ⟨e, r, her, hne⟩ := hne
  have hsk := skipWs_blocksL b bs tail
  have hp := parseElements_blocksL (depth + 1) hd bs b fuel tail
  rw [her] at hsk hp
  have h1 : ¬ maxNestingDepth ≤ depth := by omega
  rw [her]
  simp [h1, hsk, hne, hp]

theorem blockL_length (b : Block) (tail : List Char) :
    tail.length + 1 ≤ (blockL b tail).length := by
  simp only [blockL, keyL, dataL, stringL, intL, List.length_cons, List.length_append]
  omega

theorem blocksL_length : ∀ (bs : List Block) (tail : List Char),
    tail.length + bs.length ≤ (blocksL bs tail).length
  | [], tail => by simp [blocksL]
  | [b], tail => by
    have h := blockL_length b (']' :: tail)
    simp only [blocksL, List.length_cons, List.length_nil] at h ⊢
    omega
  | b :: c :: rest, tail => by
    have h := blockL_length b (',' :: blocksL (c :: rest) tail)
    have ih := blocksL_length (c :: rest) tail
    simp only [blocksL, List.length_cons] at h ih ⊢
    omega

theorem chainL_length (b : Blockchain) (tail : List Char) :
    b.Chain.length + 10 ≤ (chainL b tail).length := by
  unfold chainL
  split_ifs with h
  · simp [h, keyL]
  · have hl := blocksL_length b.Chain
      (',' :: keyL "difficulty" (intL b.Difficulty ('\x7d' :: tail)))
    simp only [keyL, List.length_cons, List.length_append] at hl ⊢
    have : ("chain" : String).data.length = 5 := by decide
    have : ("difficulty" : String).data.length = 10 := by decide
    omega

/-- The parser reads the encoding of a ledger as the JSON value of the ledger. -/
theorem parseValue_chainL (fuel : Nat) (b : Blockchain) (tail : List Char) :
    parseValue (fuel + b.Chain.length + 11) 0 (chainL b tail) = some (blockchainJson b, tail) := by
  have hd0 : 0 < maxNestingDepth := by decide
  unfold chainL blockchainJson
  rw [parseValue_object (fuel + b.Chain.length + 10) 0 _ _ hd0]
  cases hc : b.Chain with
  | nil =>
    simp only [if_true, List.length_nil, Nat.add_zero]
    rw [parseMembers_comma (fuel + 9) 1 "chain" (by decide) _ Json.null "difficulty" _
        (skipWs_cons _ _ (by decide)) (parseValue_null (fuel + 8) _ _),
      parseMembers_last (fuel + 8) 1 "difficulty" (by decide) _
        (Json.num (fmtInt b.Difficulty).data) tail (skipWs_intL _ _)
        (parseValue_intL (fuel + 7) _ _ _ _ (Or.inr rfl))]
    rfl
  | cons x xs =>
    simp only [List.cons_ne_nil, if_false, List.length_cons]
    have hv := parseValue_blocksL fuel 1 (by decide) x xs
      (',' :: keyL "difficulty" (intL b.Difficulty ('\x7d' :: tail)))
    have e1 : fuel + (xs.length + 1) + 10 = (fuel + xs.length + 10) + 1 := by omega
    have e2 : fuel + xs.length + 10 = (fuel + xs.length + 9) + 1 := by omega
    rw [e1, parseMembers_comma (fuel + xs.length + 10) 1 "chain" (by decide) _
        (Json.arr ((x :: xs).map blockJson)) "difficulty" _ (skipWs_cons _ _ (by decide)) hv,
      e2, parseMembers_last (fuel + xs.length + 9) 1 "difficulty" (by decide) _
        (Json.num (fmtInt b.Difficulty).data) tail (skipWs_intL _ _)
        (parseValue_intL _ _ _ _ _ (Or.inr rfl))]
    rfl

/-- The parser reads the encoding of a ledger, followed by white space only, as the JSON value
of the ledger. -/
theorem parseJson_marshalBlockchain (b : Blockchain) (ws : List Char) (hws : skipWs ws = []) :
    parseJson ((marshalBlockchain b).data ++ ws) = some (blockchainJson b) := by
  rw [marshalBlockchain_data]
  have hl := chainL_length b ws
  obtain ⟨fuel, hf⟩ : ∃ fuel, (chainL b ws).length + 1 = fuel + b.Chain.length + 11 :=
    ⟨(chainL b ws).length - b.Chain.length - 10, by omega⟩
  have hsk : skipWs (chainL b ws) = chainL b ws := skipWs_cons _ _ (by decide)
  unfold parseJson
  rw [hsk, hf, parseValue_chainL fuel b ws]
  simp [hws]

/-- The parser reads an empty array. -/
theorem parseValue_emptyArray (fuel depth : Nat) (hd : depth < maxNestingDepth)
    (tail : List Char) :
    parseValue (fuel + 1) depth ('[' :: ']' :: tail) = some (Json.arr [], tail) := by
  rw [parseValue]
  have h1 : ¬ maxNestingDepth ≤ depth := by omega
  simp [h1, skipWs_cons ']' tail (by decide)]

theorem marshalEmptyChain_data (difficulty : Int) (tail : List Char) :
    (marshalEmptyChain difficulty).data ++ tail =
      '\x7b' :: keyL "chain" ('[' :: ']' :: ',' :: keyL "difficulty"
        (intL difficulty ('\x7d' :: tail))) := by
  simp only [marshalEmptyChain, String.data_append, List.append_assoc]
  rfl

/-- The parser reads the encoding of a ledger whose chain is an empty slice. -/
theorem parseJson_marshalEmptyChain (difficulty : Int) (ws : List Char)
    (hws : skipWs ws = []) :
    parseJson ((marshalEmptyChain difficulty).data ++ ws) =
      some (Json.obj [("chain".data, Json.arr []),
        ("difficulty".data, Json.num (fmtInt difficulty).data)]) := by
  rw [marshalEmptyChain_data]
  unfold parseJson
  rw [skipWs_cons '\x7b' _ (by decide)]
  have hlen : ∃ fuel, ('\x7b' :: keyL "chain" ('[' :: ']' :: ',' :: keyL "difficulty"
      (intL difficulty ('\x7d' :: ws)))).length + 1 = fuel + 4 :=
    ⟨(keyL "chain" ('[' :: ']' :: ',' :: keyL "difficulty"
      (intL difficulty ('\x7d' :: ws)))).length - 2, by
        simp only [keyL, List.length_cons, List.length_append]; omega⟩
  obtain ⟨fuel, hf⟩ := hlen
  rw [hf, parseValue_object (fuel + 3) 0 _ _ (by decide),
    parseMembers_comma (fuel + 2) 1 "chain" (by decide) _ (Json.arr []) "difficulty" _
      (skipWs_cons _ _ (by decide)) (parseValue_emptyArray (fuel + 1) 1 (by decide) _),
    parseMembers_last (fuel + 1) 1 "difficulty" (by decide) _
      (Json.num (fmtInt difficulty).data) ws (skipWs_intL _ _)
      (parseValue_intL fuel _ _ _ _ (Or.inr rfl))]
  simp [hws]

/-! ### Decoding the JSON value of a ledger -/

theorem decodeInt_fmtInt (old i : Int) (hi : inInt64 i) :
    decodeInt old (Json.num (fmtInt i).data) = some i := by
  simp [decodeInt, parseInt64_fmtInt i hi]

theorem decodeBlockData_blockDataJson (old d : BlockData) (hd : inInt64 d.WaveHeight) :
    decodeBlockData old (blockDataJson d) = some d := by
  have k1 : keyMatches "location".data "location" = true := by decide
  have k2 : keyMatches "wave_height".data "location" = false := by decide
  have k3 : keyMatches "wave_height".data "wave_height" = true := by decide
  simp [decodeBlockData, blockDataJson, decodeMembers, decodeBlockDataMember, k1, k2, k3,
    decodeString, decodeInt_fmtInt _ _ hd]

theorem decodeBlock_blockJson (old b : Block) (hb : b.intsInRange) :
    decodeBlock old (blockJson b) = some b := by
  obtain ⟨h1, h2, h3, h4⟩ := hb
  have a1 : keyMatches "data".data "data" = true := by decide
  have b1 : keyMatches "hash".data "data" = false := by decide
  have b2 : keyMatches "hash".data "hash" = true := by decide
  have c1 : keyMatches "previous_hash".data "data" = false := by decide
  have c2 : keyMatches "previous_hash".data "hash" = false := by decide
  have c3 : keyMatches "previous_hash".data "previous_hash" = true := by decide
  have d1 : keyMatches "timestamp".data "data" = false := by decide
  have d2 : keyMatches "timestamp".data "hash" = false := by decide
  have d3 : keyMatches "timestamp".data "previous_hash" = false := by decide
  have d4 : keyMatches "timestamp".data "timestamp" = true := by decide
  have e1 : keyMatches "height".data "data" = false := by decide
  have e2 : keyMatches "height".data "hash" = false := by decide
  have e3 : keyMatches "height".data "previous_hash" = false := by decide
  have e4 : keyMatches "height".data "timestamp" = false := by decide
  have e5 : keyMatches "height".data "height" = true := by decide
  have f1 : keyMatches "pow".data "data" = false := by decide
  have f2 : keyMatches "pow".data "hash" = false := by decide
  have f3 : keyMatches "pow".data "previous_hash" = false := by decide
  have f4 : keyMatches "pow".data "timestamp" = false := by decide
  have f5 : keyMatches "pow".data "height" = false := by decide
  have f6 : keyMatches "pow".data "pow" = true := by decide
  simp [decodeBlock, blockJson, decodeMembers, decodeBlockMember, a1, b1, b2, c1, c2, c3,
    d1, d2, d3, d4, e1, e2, e3, e4, e5, f1, f2, f3, f4, f5, f6, decodeString,
    decodeBlockData_blockDataJson _ _ h1, decodeInt_fmtInt _ _ h2, decodeInt_fmtInt _ _ h3,
    decodeInt_fmtInt _ _ h4]

theorem decodeBlocks_blockJson : ∀ (bs old : List Block), (∀ x ∈ bs, x.intsInRange) →
    decodeBlocks old (bs.map blockJson) = some bs
  | [], old, _ => by simp [decodeBlocks]
  | b :: bs, old, h => by
    have hb := decodeBlock_blockJson (old.headD zeroBlock) b (h b (List.mem_cons_self _ _))
    have ih := decodeBlocks_blockJson bs old.tail (fun x hx => h x (List.mem_cons_of_mem _ hx))
    simp only [List.map_cons, decodeBlocks, hb, ih, Option.map_some']

theorem decodeChain_blockJson (held spare bs : List Block) (h : ∀ x ∈ bs, x.intsInRange) :
    ∃ spare', decodeChain held spare
      (if bs = [] then Json.null else Json.arr (bs.map blockJson)) = some (bs, spare') := by
  cases bs with
  | nil => exact ⟨[], by simp [decodeChain]⟩
  | cons x xs =>
    have hd := decodeBlocks_blockJson (x :: xs) (held ++ spare) h
    rw [List.map_cons] at hd
    refine ⟨(held ++ spare).drop (blockJson x :: xs.map blockJson).length, ?_⟩
    simp only [List.cons_ne_nil, if_false, List.map_cons, decodeChain, hd, Option.map_some']

theorem decodeBlockchain_blockchainJson (old : Decoding) (b : Blockchain)
    (hb : b.intsInRange) :
    ∃ spare', decodeBlockchain old (blockchainJson b) = some ⟨b, spare'⟩ := by
  obtain ⟨h1, h2⟩ := hb
  have k1 : keyMatches "chain".data "chain" = true := by decide
  have k2 : keyMatches "difficulty".data "chain" = false := by decide
  have k3 : keyMatches "difficulty".data "difficulty" = true := by decide
  obtain ⟨spare', hc⟩ := decodeChain_blockJson old.value.Chain old.spare b.Chain h1
  exact ⟨spare', by
    simp [decodeBlockchain, blockchainJson, decodeMembers, decodeBlockchainMember, k1, k2, k3,
      hc, decodeInt_fmtInt _ _ h2]⟩

/-- Decoding the encoding of a ledger, followed by white space only, gives the ledger back. -/
theorem unmarshal_marshal_ws (b : Blockchain) (hb : b.intsInRange) (ws : String)
    (hws : skipWs ws.data = []) :
    unmarshalBlockchain (marshalBlockchain b ++ ws) = some b := by
  obtain ⟨spare', hd⟩ := decodeBlockchain_blockchainJson ⟨⟨[], 0⟩, []⟩ b hb
  simp [unmarshalBlockchain, String.data_append, parseJson_marshalBlockchain b ws.data hws, hd]

/-- Decoding the encoding of a ledger whose chain is an empty slice gives the ledger back. -/
theorem unmarshal_marshalEmptyChain (difficulty : Int) (hd : inInt64 difficulty) (ws : String)
    (hws : skipWs ws.data = []) :
    unmarshalBlockchain (marshalEmptyChain difficulty ++ ws) = some ⟨[], difficulty⟩ := by
  have k1 : keyMatches "chain".data "chain" = true := by decide
  have k2 : keyMatches "difficulty".data "chain" = false := by decide
  have k3 : keyMatches "difficulty".data "difficulty" = true := by decide
  simp [unmarshalBlockchain, String.data_append, parseJson_marshalEmptyChain difficulty ws.data hws,
    decodeBlockchain, decodeMembers, decodeBlockchainMember, k1, k2, k3, decodeChain,
    decodeInt_fmtInt _ _ hd]

/-- A node that reads the line broadcastData writes for a ledger takes the receive step on that
ledger. -/
theorem readDataLine_broadcast (myChain b : Blockchain) (hb : b.intsInRange) :
    readDataLine myChain (marshalBlockchain b ++ "\n") = readData myChain b := by
  have hdata : (marshalBlockchain b ++ "\n").data = chainL b ['\n'] := by
    rw [String.data_append, marshalBlockchain_data]
  have hne : ∀ t : String, t.data.head? ≠ some '\x7b' → marshalBlockchain b ++ "\n" ≠ t := by
    intro t ht heq
    rw [← heq, hdata] at ht
    exact ht rfl
  have h1 : marshalBlockchain b ++ "\n" ≠ "" := hne "" (by decide)
  have h2 : marshalBlockchain b ++ "\n" ≠ "\n" := hne "\n" (by decide)
  have h3 : (marshalBlockchain b ++ "\n").data.getLast? = some '\n' := by
    rw [String.data_append]
    exact List.getLast?_concat _
  simp only [readDataLine, h1, h2, h3, ne_eq, not_true_eq_false, or_self, if_false,
    unmarshal_marshal_ws b hb "\n" (by decide)]

/-! ## The properties of the ledger -/

/-- C1, as the code behaves: the receive step changes the local ledger if and only if the decoded
snapshot has strictly more blocks; it then becomes the snapshot, and otherwise it is what it was
(blocks and difficulty). The snapshot is not validated. -/
theorem readData_changes_iff_longer (myChain chain : Blockchain) :
    (readData myChain chain ≠ myChain ↔ myChain.Chain.length < chain.Chain.length) ∧
      readData myChain chain =
        (if myChain.Chain.length < chain.Chain.length then chain else myChain) := by
  by_cases hl : myChain.Chain.length < chain.Chain.length
  · rw [readData_of_longer myChain chain hl]
    refine ⟨⟨fun _ => hl, fun _ heq => ?_⟩, by simp [hl]⟩
    rw [heq] at hl
    exact lt_irrefl _ hl
  · rw [readData_of_not_longer myChain chain hl]
    exact ⟨⟨fun hne => absurd rfl hne, fun h => absurd h hl⟩, by simp [hl]⟩

set_option maxRecDepth 100000 in
/-- C1 fails as stated: a genesis-only ledger that receives a snapshot of two blocks failing
IsValid is changed by the receive step. -/
theorem readData_adopts_invalid_snapshot :
    ¬ (readData (NewBlockchain 0 2) brokenSnapshot ≠ NewBlockchain 0 2 ↔
        ((NewBlockchain 0 2).Chain.length < brokenSnapshot.Chain.length ∧
          IsValid brokenSnapshot = true)) := by
  decide

/-- C3: a call of mine at a difficulty d ≥ 0 that returns leaves a hash that begins with d
characters 0. -/
theorem mine_leading_zeros (fuel : Nat) (d : Int) (b b' : Block) (_hd : 0 ≤ d)
    (h : mine fuel d b = some b') : List.replicate d.toNat '0' <+: b'.Hash.data := by
  have hp := (mine_hasZeroPrefix fuel d b b' h).2
  simpa [hasZeroPrefix] using hp

set_option maxRecDepth 100000 in
/-- C3 at difficulty 1 on the block of the payload Pier7: mining returns after ten turns. -/
theorem mine_leading_zeros_witness :
    mine 11 1 pierBlock = some (pierSnapshot.Chain.getD 1 pierBlock) ∧
      List.replicate (1 : Int).toNat '0' <+: (pierSnapshot.Chain.getD 1 pierBlock).Hash.data :=
  have hm : mine 11 1 pierBlock = some (pierSnapshot.Chain.getD 1 pierBlock) := by decide
  ⟨hm, mine_leading_zeros 11 1 pierBlock _ (by decide) hm⟩

/-- C5, as the code behaves: on a ledger with tip `tip`, when mining of the new block returns
`mined`, AppendBlock returns the old chain followed by `mined` alone, at the same difficulty;
`mined` carries the payload, the hash of the tip as previous hash, the clock reading, and as
height the height of the tip plus one in the 64-bit arithmetic of int: the successor when the tip
is below the largest int, the smallest int when the tip is at the largest. -/
theorem AppendBlock_appends (fuel : Nat) (now : Int) (location : String) (waveHeight : Int)
    (b : Blockchain) (tip mined : Block) (htip : b.Chain.getLast? = some tip)
    (hmine : mine fuel b.Difficulty (unminedBlock tip now location waveHeight) = some mined) :
    AppendBlock fuel now location waveHeight b = some ⟨b.Chain ++ [mined], b.Difficulty⟩ ∧
      mined.Data = ⟨location, waveHeight⟩ ∧ mined.PreviousHash = tip.Hash ∧
      mined.Timestamp = now ∧ mined.Height = wrapInt64 (tip.Height + 1) ∧
      (inInt64 tip.Height ∧ tip.Height ≠ 9223372036854775807 → mined.Height = tip.Height + 1) ∧
      (tip.Height = 9223372036854775807 → mined.Height = -9223372036854775808) := by
  obtain ⟨h1, h2, h3, h4⟩ := mine_frame fuel _ _ mined hmine
  refine ⟨?_, h1, h2, h3, h4, ?_, ?_⟩
  · exact AppendBlock_eq_of_mine fuel now location waveHeight b tip mined htip hmine
  · rintro ⟨⟨hlo, hhi⟩, hne⟩
    rw [h4]
    simp only [unminedBlock, wrapInt64]
    omega
  · intro hmax
    rw [h4]
    simp only [unminedBlock, wrapInt64, hmax]
    decide

set_option maxRecDepth 100000 in
/-- C5 fails as stated: on the valid ledger whose tip is at height 9223372036854775807, mining at
difficulty 1 returns and AppendBlock adds a block whose height is -9223372036854775808, not the
height of the tip plus one. -/
theorem AppendBlock_height_wraps :
    IsValid topSnapshot = true ∧
      topSnapshot.Chain.getLast? = some (topSnapshot.Chain.getD 1 topMined) ∧
      (topSnapshot.Chain.getD 1 topMined).Height = 9223372036854775807 ∧
      ¬ (∀ mined : Block,
          AppendBlock 2 1700000022 "Pier7" 3 topSnapshot =
            some ⟨topSnapshot.Chain ++ [mined], topSnapshot.Difficulty⟩ →
          mined.Height = 9223372036854775807 + 1) := by
  refine ⟨by decide, by decide, by decide, fun h => ?_⟩
  have h2 := h topMined (by decide)
  revert h2
  decide

set_option maxRecDepth 100000 in
/-- C5 on the genesis ledger of clock reading 1700000000 at difficulty 1 and the payload
Pier7. -/
theorem AppendBlock_appends_witness :
    AppendBlock 11 1700000001 "Pier7" 3 (NewBlockchain 1700000000 1) =
      some ⟨(NewBlockchain 1700000000 1).Chain ++ [pierSnapshot.Chain.getD 1 pierBlock], 1⟩ :=
  (AppendBlock_appends 11 1700000001 "Pier7" 3 (NewBlockchain 1700000000 1)
    (pierSnapshot.Chain.getD 0 pierBlock) (pierSnapshot.Chain.getD 1 pierBlock)
    (by decide) (by decide)).1

/-- C6: a decoded snapshot that passes IsValid and has strictly more blocks than the local ledger
is the local ledger after the receive step. -/
theorem readData_adopts_longer_valid (myChain chain : Blockchain)
    (_hvalid : IsValid chain = true) (hlonger : myChain.Chain.length < chain.Chain.length) :
    (readData myChain chain).Chain = chain.Chain ∧
      (readData myChain chain).Chain.length = chain.Chain.length ∧
      readData myChain chain = chain := by
  rw [readData_of_longer myChain chain hlonger]
  exact ⟨rfl, rfl, rfl⟩

set_option maxRecDepth 100000 in
/-- C6 on a genesis-only ledger and a valid snapshot of three blocks. -/
theorem readData_adopts_longer_valid_witness :
    (NewBlockchain 1700000005 2).Chain.length = 1 ∧ pierSnapshot.Chain.length = 3 ∧
      IsValid pierSnapshot = true ∧
      (readData (NewBlockchain 1700000005 2) pierSnapshot).Chain = pierSnapshot.Chain :=
  ⟨by decide, by decide, by decide,
    (readData_adopts_longer_valid (NewBlockchain 1700000005 2) pierSnapshot (by decide)
      (by decide)).1⟩

/-- C7, as the code behaves: after any run of local appends and receive steps the difficulty of
the ledger is its initial value or the difficulty of a strictly longer snapshot received on the
way; in particular it is the initial value when every received snapshot carries that value. -/
theorem difficulty_after_run : ∀ (events : List Event) (init c : Blockchain),
    run init events = some c →
      (c.Difficulty = init.Difficulty ∨
        ∃ chain, Event.receive chain ∈ events ∧ init.Chain.length < chain.Chain.length ∧
          c.Difficulty = chain.Difficulty) ∧
      ((∀ chain, Event.receive chain ∈ events → chain.Difficulty = init.Difficulty) →
        c.Difficulty = init.Difficulty)
  | [], init, c, h => by
    simp only [run] at h
    injection h with h
    subst h
    exact ⟨Or.inl rfl, fun _ => rfl⟩
  | e :: es, init, c, h => by
    simp only [run] at h
    split at h
    · simp at h
    · next next hs =>
      obtain ⟨ih1, ih2⟩ := difficulty_after_run es next c h
      have hlen := step_length_le init next e hs
      have first : c.Difficulty = init.Difficulty ∨
          ∃ chain, Event.receive chain ∈ e :: es ∧ init.Chain.length < chain.Chain.length ∧
            c.Difficulty = chain.Difficulty := by
        rcases ih1 with h1 | ⟨chain, hmem, hlt, hd⟩
        · rcases step_difficulty init next e hs with h2 | ⟨chain, he, hlt, hc⟩
          · exact Or.inl (h1.trans h2)
          · right
            refine ⟨chain, ?_, hlt, ?_⟩
            · rw [he]
              exact List.mem_cons_self _ _
            · rw [h1, hc]
        · exact Or.inr ⟨chain, List.mem_cons_of_mem _ hmem, lt_of_le_of_lt hlen hlt, hd⟩
      refine ⟨first, fun hall => ?_⟩
      rcases first with h1 | ⟨chain, hmem, _, hd⟩
      · exact h1
      · rw [hd]
        exact hall chain hmem

set_option maxRecDepth 100000 in
/-- C7 on a run whose received snapshot carries the difficulty of the initial ledger. -/
theorem difficulty_after_run_witness :
    run (NewBlockchain 1700000000 1) [Event.receive pierSnapshot] = some pierSnapshot ∧
      pierSnapshot.Difficulty = (NewBlockchain 1700000000 1).Difficulty :=
  have hrun : run (NewBlockchain 1700000000 1) [Event.receive pierSnapshot] = some pierSnapshot :=
    by decide
  ⟨hrun, (difficulty_after_run _ _ _ hrun).2 (fun chain hmem => by
    simp only [List.mem_singleton, Event.receive.injEq] at hmem
    rw [hmem]
    rfl)⟩

set_option maxRecDepth 100000 in
/-- C7 fails as stated: from NewBlockchain(2), one receive step on a longer snapshot that
carries difficulty 0 leaves a ledger of difficulty 0. -/
theorem difficulty_changed_by_receive :
    ¬ (∀ c, run (NewBlockchain 0 2) [Event.receive brokenSnapshot] = some c →
        c.Difficulty = (NewBlockchain 0 2).Difficulty) := by
  intro h
  have h2 := h brokenSnapshot (by decide)
  revert h2
  decide

/-- C9: in every state reached from NewBlockchain(d) by local appends and receive steps, the chain
has at least one block, so the tip that AppendBlock reads exists. -/
theorem chain_never_empty (now d : Int) (events : List Event) (c : Blockchain)
    (h : run (NewBlockchain now d) events = some c) :
    1 ≤ c.Chain.length ∧ c.Chain.getLast?.isSome = true := by
  have hlen : 1 ≤ c.Chain.length := run_length_le events _ c h
  refine ⟨hlen, ?_⟩
  cases hc : c.Chain with
  | nil => rw [hc] at hlen; simp at hlen
  | cons x l => simp [List.getLast?_cons]

/-- C10: the blocks with Timestamp 1, Pow 11 and with Timestamp 11, Pow 1, at Height 1 and equal
in the other fields, differ, yet the string hashed is the same, so is the result of calculateHash,
and substituting one for the other anywhere in a ledger does not change the result of IsValid. -/
theorem calculateHash_ignores_field_boundaries (data : BlockData) (hash previousHash : String) :
    (⟨data, hash, previousHash, 1, 1, 11⟩ : Block) ≠ ⟨data, hash, previousHash, 11, 1, 1⟩ ∧
      hashInput ⟨data, hash, previousHash, 1, 1, 11⟩ =
        hashInput ⟨data, hash, previousHash, 11, 1, 1⟩ ∧
      calculateHash ⟨data, hash, previousHash, 1, 1, 11⟩ =
        calculateHash ⟨data, hash, previousHash, 11, 1, 1⟩ ∧
      ∀ (pre post : List Block) (d : Int),
        IsValid ⟨pre ++ ⟨data, hash, previousHash, 1, 1, 11⟩ :: post, d⟩ =
          IsValid ⟨pre ++ ⟨data, hash, previousHash, 11, 1, 1⟩ :: post, d⟩ := by
  have hin : hashInput ⟨data, hash, previousHash, 1, 1, 11⟩ =
      hashInput ⟨data, hash, previousHash, 11, 1, 1⟩ := by
    have h1 : fmtInt 1 = "1" := by decide
    have h11 : fmtInt 11 = "11" := by decide
    simp only [hashInput, h1, h11, String.append_assoc]
    rfl
  have hcalc := calculateHash_congr _ _ hin
  refine ⟨?_, hin, hcalc, fun pre post d => ?_⟩
  · intro h
    have ht := congrArg Block.Timestamp h
    simp at ht
  · have hsame : sameForValidation ⟨data, hash, previousHash, 1, 1, 11⟩
        ⟨data, hash, previousHash, 11, 1, 1⟩ := ⟨rfl, rfl, rfl, hcalc⟩
    exact IsValid_substitute _ _ hsame pre post d

/-- C2 at difficulty 0: whatever the clock readings and the payload, AppendBlock on the ledger
NewBlockchain(0) returns a ledger whose new block has the empty string as hash, and IsValid
returns false on it. -/
theorem AppendBlock_difficulty_zero_invalid (fuel : Nat) (now0 now1 : Int) (location : String)
    (waveHeight : Int) :
    ∃ c newBlock, AppendBlock (fuel + 1) now1 location waveHeight (NewBlockchain now0 0) = some c ∧
      c.Chain = (NewBlockchain now0 0).Chain ++ [newBlock] ∧ newBlock.Hash = "" ∧
      IsValid c = false := by
  have hm : mine (fuel + 1) (NewBlockchain now0 0).Difficulty
      (unminedBlock (genesisAt now0) now1 location waveHeight) =
      some (unminedBlock (genesisAt now0) now1 location waveHeight) := by
    simp [mine, NewBlockchain, hasZeroPrefix]
  have ha := AppendBlock_eq_of_mine (fuel + 1) now1 location waveHeight (NewBlockchain now0 0)
    (genesisAt now0) _ rfl hm
  refine ⟨_, _, ha, rfl, rfl, ?_⟩
  simp [IsValid, NewBlockchain_eq, isValidFrom, linkOk, unminedBlock, empty_ne_calculateHash]

/-- The positive part of C2: from NewBlockchain(d) with d ≥ 1, every ledger built by appends
alone passes IsValid. -/
theorem IsValid_after_appends (now d : Int) (hd : 1 ≤ d) (events : List Event) (c : Blockchain)
    (hall : ∀ e ∈ events, e.isAppend = true) (h : run (NewBlockchain now d) events = some c) :
    IsValid c = true :=
  run_appends_IsValid events (NewBlockchain now d) c hd rfl hall h

set_option maxRecDepth 100000 in
/-- C9 on a run of one local append and two receive steps, the second of which adopts. -/
theorem chain_never_empty_witness :
    run (NewBlockchain 1700000000 1) [Event.append 11 1700000001 "Pier7" 3,
        Event.receive brokenSnapshot, Event.receive pierSnapshot] = some pierSnapshot ∧
      1 ≤ pierSnapshot.Chain.length :=
  have hrun : run (NewBlockchain 1700000000 1) [Event.append 11 1700000001 "Pier7" 3,
      Event.receive brokenSnapshot, Event.receive pierSnapshot] = some pierSnapshot := by decide
  ⟨hrun, (chain_never_empty 1700000000 1 _ pierSnapshot hrun).1⟩

/-- C4, as the code behaves. In a ledger that passes IsValid, take the block `b` at index
`pre.length`. At an index of at least 1, changing its stored Hash, its PreviousHash or its Height
alone makes IsValid return false. At index 0 of a ledger of at least two blocks, changing its
stored Hash or its Height alone does so too. -/
theorem IsValid_detects_tampering (pre post : List Block) (b : Block) (d : Int)
    (hvalid : IsValid ⟨pre ++ b :: post, d⟩ = true) :
    (pre ≠ [] →
      (∀ h, h ≠ b.Hash → IsValid ⟨pre ++ { b with Hash := h } :: post, d⟩ = false) ∧
      (∀ p, p ≠ b.PreviousHash →
        IsValid ⟨pre ++ { b with PreviousHash := p } :: post, d⟩ = false) ∧
      (∀ n, n ≠ b.Height → IsValid ⟨pre ++ { b with Height := n } :: post, d⟩ = false)) ∧
    (pre = [] → post ≠ [] →
      (∀ h, h ≠ b.Hash → IsValid ⟨{ b with Hash := h } :: post, d⟩ = false) ∧
      (∀ n, n ≠ b.Height → inInt64 n → inInt64 b.Height →
        IsValid ⟨{ b with Height := n } :: post, d⟩ = false)) := by
  constructor
  · intro hpre
    cases pre with
    | nil => exact absurd rfl hpre
    | cons x l =>
      rw [IsValid_cons_append] at hvalid
      simp only [Bool.and_eq_true] at hvalid
      obtain ⟨h1, h2, h3⟩ := (linkOk_iff _ _).1 hvalid.1.2
      have bad : ∀ b' : Block, linkOk ((x :: l).getLast (by simp)) b' = false →
          IsValid ⟨(x :: l) ++ b' :: post, d⟩ = false := by
        intro b' hb'
        rw [IsValid_cons_append, hb']
        simp
      refine ⟨fun h hne => bad _ ?_, fun p hne => bad _ ?_, fun n hne => bad _ ?_⟩
      · rw [Bool.eq_false_iff]
        intro hl
        obtain ⟨_, k2, _⟩ := (linkOk_iff _ _).1 hl
        exact hne (k2.trans h2.symm)
      · rw [Bool.eq_false_iff]
        intro hl
        obtain ⟨_, _, k3⟩ := (linkOk_iff _ _).1 hl
        exact hne (k3.trans h3.symm)
      · rw [Bool.eq_false_iff]
        intro hl
        obtain ⟨k1, _, _⟩ := (linkOk_iff _ _).1 hl
        exact hne (k1.trans h1.symm)
  · intro hpre hpost
    subst hpre
    cases post with
    | nil => exact absurd rfl hpost
    | cons c rest =>
      have hl : linkOk b c = true := by
        simp only [IsValid, List.nil_append, isValidFrom] at hvalid
        by_contra hne
        simp [hne] at hvalid
      obtain ⟨h1, _, h3⟩ := (linkOk_iff _ _).1 hl
      have bad : ∀ b' : Block, linkOk b' c = false → IsValid ⟨b' :: c :: rest, d⟩ = false := by
        intro b' hb'
        simp [IsValid, isValidFrom, hb']
      refine ⟨fun h hne => bad _ ?_, fun n hne hn hb => bad _ ?_⟩
      · rw [Bool.eq_false_iff]
        intro hl'
        obtain ⟨_, _, k3⟩ := (linkOk_iff _ _).1 hl'
        exact hne (k3.symm.trans h3)
      · rw [Bool.eq_false_iff]
        intro hl'
        obtain ⟨k1, _, _⟩ := (linkOk_iff _ _).1 hl'
        exact hne (wrapInt64_succ_injective n b.Height hn hb (k1.symm.trans h1))

set_option maxRecDepth 100000 in
/-- C4 on the valid ledger of three blocks, at its last block: a changed stored hash is
detected. -/
theorem IsValid_detects_tampering_witness :
    IsValid pierSnapshot = true ∧
      IsValid ⟨pierSnapshot.Chain.take 2 ++
        { pierSnapshot.Chain.getD 2 pierBlock with Hash := "00" } :: [], 1⟩ = false :=
  have hv : IsValid ⟨pierSnapshot.Chain.take 2 ++ pierSnapshot.Chain.getD 2 pierBlock :: [], 1⟩ =
      true := by decide
  ⟨hv, ((IsValid_detects_tampering (pierSnapshot.Chain.take 2) []
    (pierSnapshot.Chain.getD 2 pierBlock) 1 hv).1 (by decide)).1 "00" (by decide)⟩

set_option maxRecDepth 100000 in
/-- C4 fails as stated. In the genesis-only ledger NewBlockchain(2) the stored hash of the only
block can be changed, and in the valid ledger of three blocks the PreviousHash of the genesis
block can be changed, and IsValid still returns true. -/
theorem IsValid_misses_genesis_tampering :
    ¬ (IsValid (NewBlockchain 0 2) = true → "0" ≠ (genesisAt 0).Hash →
        IsValid ⟨[{ genesisAt 0 with Hash := "0" }], 2⟩ = false) ∧
    ¬ (IsValid pierSnapshot = true → "ff" ≠ (pierSnapshot.Chain.getD 0 pierBlock).PreviousHash →
        IsValid ⟨{ pierSnapshot.Chain.getD 0 pierBlock with PreviousHash := "ff" } ::
          pierSnapshot.Chain.drop 1, 1⟩ = false) := by
  decide

/-- C8: decoding the encoding of a ledger returns a ledger with the same difficulty and the same
blocks, field for field, and a ledger that passed IsValid passes it after the round trip. The same
holds of the line that broadcastData writes (the encoding and a newline) and, for an empty chain,
of the encoding of the empty slice. -/
theorem marshal_unmarshal_roundtrip (b : Blockchain) (hb : b.intsInRange) :
    ∃ decoded, unmarshalBlockchain (marshalBlockchain b) = some decoded ∧
      decoded.Difficulty = b.Difficulty ∧ decoded.Chain = b.Chain ∧
      (IsValid b = true → IsValid decoded = true) ∧
      unmarshalBlockchain (marshalBlockchain b ++ "\n") = some decoded ∧
      (b.Chain = [] → unmarshalBlockchain (marshalEmptyChain b.Difficulty) = some decoded) := by
  refine ⟨b, ?_, rfl, rfl, fun h => h, ?_, fun hnil => ?_⟩
  · have h := unmarshal_marshal_ws b hb "" rfl
    rwa [String.append_empty] at h
  · exact unmarshal_marshal_ws b hb "\n" (by decide)
  · have h := unmarshal_marshalEmptyChain b.Difficulty hb.2 "" rfl
    rw [String.append_empty] at h
    rw [h]
    cases b with
    | mk chain difficulty =>
      simp only at hnil
      rw [hnil]

/-- C8 on the valid ledger of three blocks. -/
theorem marshal_unmarshal_roundtrip_witness :
    pierSnapshot.intsInRange ∧
      ∃ decoded, unmarshalBlockchain (marshalBlockchain pierSnapshot) = some decoded ∧
        decoded.Difficulty = 1 ∧ decoded.Chain = pierSnapshot.Chain :=
  ⟨by decide,
    let ⟨decoded, h1, h2, h3, _⟩ := marshal_unmarshal_roundtrip pierSnapshot (by decide)
    ⟨decoded, h1, h2, h3⟩⟩

end P2PBlockchain
